import Mathlib

/-!
# Coin selection core: shallow embedding and verification

This file embeds the coin-selection module of a Bitcoin wallet library
(`crates/wallet/src/wallet/coin_selection.rs`) into Lean 4 and proves the
specification's claims about it.

Conventions of the embedding:
* Rust `Amount` (unsigned satoshis) is `Nat`; `SignedAmount` is `Int`.
  Rust `Amount` addition panics on overflow near 2^64 which is unreachable for
  Bitcoin amounts, so `Nat` arithmetic is a faithful model.
* `Amount::checked_sub(..).unwrap_or_default()` is truncated `Nat` subtraction.
* Fallible operations return `Except`.
* Opaque primitives-layer types are modelled by the observations the code makes
  of them: a `Script` is its byte list together with its `minimal_non_dust`
  value.
* `FeeRate` is stored in satoshis per 1000 weight units; multiplication by a
  weight rounds the fee up, matching `FeeRate * Weight` of the primitives layer
  (1 sat/vB on a 271 wu input gives 68 sats, as the unit tests of the source
  require).
-/

namespace CoinSelection

/-- Identity of a UTXO: (txid, vout). The txid is abstracted to a `Nat`. -/
structure OutPoint where
  txid : Nat
  vout : Nat
deriving DecidableEq, Repr

/-- A script, modelled by the observations the coin-selection code makes of an
opaque primitives-layer script: its raw bytes (used for grouping equality and
serialized length) and its `minimal_non_dust()` dust threshold. -/
structure Script where
  bytes : List Nat
  minimalNonDust : Nat
deriving DecidableEq, Repr

/-- Length of the Bitcoin varint encoding of `n` (consensus encoding). -/
def varintLen (n : Nat) : Nat :=
  if n < 253 then 1 else if n < 65536 then 3 else if n < 4294967296 then 5 else 9

/-- `serialize(script).len()`: varint length prefix plus the raw bytes. -/
def Script.serializedLen (s : Script) : Nat :=
  varintLen s.bytes.length + s.bytes.length

structure TxOut where
  value : Nat
  scriptPubkey : Script
deriving DecidableEq, Repr

/-- Position of a transaction in the chain.  The `chain` crate of this
repository is not under `src/`; modelled from the spec: `Confirmed` carries the
block height (ordering key) and confirmation time, `Unconfirmed` a last-seen
timestamp. -/
inductive ChainPosition where
  | confirmed (height : Nat) (confirmationTime : Nat)
  | unconfirmed (lastSeen : Nat)
deriving DecidableEq, Repr

/-- Modelled from the spec: the ordering of `ChainPosition` (derived `Ord` in
the `chain` crate, which is not under `src/`): confirmed positions compare by
height (earliest first), and every confirmed position precedes every
unconfirmed one ("unconfirmed positions have lowest priority"). -/
def ChainPosition.le : ChainPosition → ChainPosition → Bool
  | .confirmed h1 t1, .confirmed h2 t2 => h1 < h2 || (h1 == h2 && t1 ≤ t2)
  | .confirmed _ _, .unconfirmed _ => true
  | .unconfirmed _, .confirmed _ _ => false
  | .unconfirmed l1, .unconfirmed l2 => l1 ≤ l2

/-- A spendable transaction output known to the wallet.  Only `local` outputs
carry a chain position. -/
inductive Utxo where
  | local (outpoint : OutPoint) (txout : TxOut) (chainPosition : ChainPosition)
  | foreign (outpoint : OutPoint) (txout : TxOut)
deriving DecidableEq, Repr

def Utxo.txout : Utxo → TxOut
  | .local _ t _ => t
  | .foreign _ t => t

def Utxo.outpoint : Utxo → OutPoint
  | .local o _ _ => o
  | .foreign o _ => o

/-- The `match` used by `OldestFirstCoinSelection`: a `local` output exposes its
chain position, a `foreign` one yields `none`. -/
def Utxo.chainPositionKey : Utxo → Option ChainPosition
  | .local _ _ cp => some cp
  | .foreign _ _ => none

/-- A UTXO together with the caller-supplied satisfaction weight (weight units
of the witness/script-sig needed to spend it). -/
structure WeightedUtxo where
  utxo : Utxo
  satisfactionWeight : Nat
deriving DecidableEq, Repr

/-- Fee rate, stored as satoshis per 1000 weight units
(`FeeRate::from_sat_per_vb(n)` stores `250 * n`). -/
structure FeeRate where
  satPerKwu : Nat
deriving DecidableEq, Repr

/-- `FeeRate * Weight` of the primitives layer: multiply and divide by 1000
rounding up, yielding an amount in satoshis. -/
def FeeRate.mulWeight (r : FeeRate) (weightWu : Nat) : Nat :=
  (r.satPerKwu * weightWu + 999) / 1000

/-- `Weight::from_vb`: virtual bytes to weight units. -/
def weightFromVb (vb : Nat) : Nat := vb * 4

/-- `TxIn::default().segwit_weight()`: the weight of an empty segwit-spending
input (36-byte outpoint + 4-byte sequence + 1-byte empty script-sig length,
times 4). -/
def defaultSegwitInputWeightWu : Nat := 164

/-- Per-input weight: default segwit input weight plus satisfaction weight. -/
def inputWeight (w : WeightedUtxo) : Nat :=
  defaultSegwitInputWeightWu + w.satisfactionWeight

/-- Per-input fee: `fee_rate * (TxIn::default().segwit_weight() + satisfaction_weight)`. -/
def inputFee (r : FeeRate) (w : WeightedUtxo) : Nat :=
  r.mulWeight (inputWeight w)

/-- Modelled from the spec: `Amount::is_dust` (trait `IsDust` lives in
`wallet/utils.rs`, which is not under `src/`).  Per spec §4.2, the leftover is
dust exactly when `drain_value ≤ dust_threshold(drain_script)`. -/
def isDust (a : Nat) (s : Script) : Bool :=
  a ≤ s.minimalNonDust

/-- Remaining amount after performing coin selection. -/
inductive Excess where
  | noChange (dustThreshold : Nat) (remainingAmount : Nat) (changeFee : Nat)
  | change (amount : Nat) (fee : Nat)
deriving DecidableEq, Repr

structure CoinSelectionResult where
  selected : List Utxo
  feeAmount : Nat
  excess : Excess
deriving DecidableEq, Repr

structure InsufficientFunds where
  needed : Nat
  available : Nat
deriving DecidableEq, Repr

/-- `decide_change`: decide whether the leftover can fund a change output. -/
def decide_change (remainingAmount : Nat) (feeRate : FeeRate) (drainScript : Script) :
    Excess :=
  let drainOutputLen := drainScript.serializedLen + 8
  let changeFee := feeRate.mulWeight (weightFromVb drainOutputLen)
  let drainVal := remainingAmount - changeFee
  if isDust drainVal drainScript then
    Excess.noChange drainScript.minimalNonDust remainingAmount changeFee
  else
    Excess.change drainVal changeFee

def groupValue (g : List WeightedUtxo) : Nat :=
  (g.map (fun w => w.utxo.txout.value)).sum

def groupFees (r : FeeRate) (g : List WeightedUtxo) : Nat :=
  (g.map (inputFee r)).sum

/-- The `scan` of `select_sorted_utxos`: traverse the `(must_use, group)` pairs
accumulating selected value and fee; a group is taken when `must_use` holds or
the accumulated value is still below `target + fee`; the first declined group
ends the iteration (Rust `Iterator::scan` stops at the first `None`).  Returns
the taken groups (still weighted; they are projected to bare UTXOs by the
caller exactly as the source projects each group as it is yielded) and the
final accumulators. -/
def selectScan (feeRate : FeeRate) (targetAmount : Nat) :
    List (Bool × List WeightedUtxo) → Nat → Nat →
    List (List WeightedUtxo) × Nat × Nat
  | [], selectedAmount, feeAmount => ([], selectedAmount, feeAmount)
  | (mustUse, group) :: rest, selectedAmount, feeAmount =>
    if mustUse || selectedAmount < targetAmount + feeAmount then
      let feeAmount' := feeAmount + groupFees feeRate group
      let selectedAmount' := selectedAmount + groupValue group
      let (gs, s, f) := selectScan feeRate targetAmount rest selectedAmount' feeAmount'
      (group :: gs, s, f)
    else
      ([], selectedAmount, feeAmount)

/-- `select_sorted_utxos`: shared greedy driver of the three sorted policies. -/
def select_sorted_utxos (utxos : List (Bool × List WeightedUtxo)) (feeRate : FeeRate)
    (targetAmount : Nat) (drainScript : Script) :
    Except InsufficientFunds CoinSelectionResult :=
  let (groups, selectedAmount, feeAmount) := selectScan feeRate targetAmount utxos 0 0
  let amountNeededWithFees := targetAmount + feeAmount
  if selectedAmount < amountNeededWithFees then
    Except.error ⟨amountNeededWithFees, selectedAmount⟩
  else
    let remainingAmount := selectedAmount - amountNeededWithFees
    let excess := decide_change remainingAmount feeRate drainScript
    Except.ok ⟨(groups.map (fun g => g.map (fun w => w.utxo))).flatten, feeAmount, excess⟩

def OUTPUT_GROUP_MAX_ENTRIES : Nat := 100

def spkBytes (w : WeightedUtxo) : List Nat :=
  w.utxo.txout.scriptPubkey.bytes

/-- Add a UTXO to the partition keyed by script bytes (the source uses a
`HashMap<Vec<u8>, Vec<WeightedUtxo>>`; its iteration order is unspecified, and
this model fixes first-occurrence order, which no downstream claim depends on:
policies re-sort). -/
def addToGroups (w : WeightedUtxo) : List (List WeightedUtxo) → List (List WeightedUtxo)
  | [] => [[w]]
  | g :: gs =>
    if g.head?.map spkBytes = some (spkBytes w) then (g ++ [w]) :: gs
    else g :: addToGroups w gs

def groupByScript (utxos : List WeightedUtxo) : List (List WeightedUtxo) :=
  utxos.foldl (fun acc w => addToGroups w acc) []

/-- Recursion kernel of `chunksOf`: each step consumes at least one element, so
`l.length` steps of fuel always suffice. -/
def chunksOfAux (n : Nat) : Nat → List α → List (List α)
  | 0, _ => []
  | _, [] => []
  | fuel + 1, x :: xs => (x :: xs).take n :: chunksOfAux n fuel ((x :: xs).drop n)

/-- `slice::chunks(n)`: consecutive chunks of at most `n` elements (the source
only calls it with `n = 100`; `n = 0` would panic in Rust and returns `[]`
here for `n = 0` once the fuel runs out with `l` still nonempty is impossible
since `n = 0` keeps the list intact — the `n = 0` case is unreachable from the
source). -/
def chunksOf (n : Nat) (l : List α) : List (List α) :=
  chunksOfAux n l.length l

/-- `group_utxos_if_applies`: singleton groups unless partial spends are to be
avoided, in which case UTXOs are grouped by script bytes with groups larger
than `OUTPUT_GROUP_MAX_ENTRIES` split into chunks. -/
def group_utxos_if_applies (utxos : List WeightedUtxo) (avoidPartialSpends : Bool) :
    List (List WeightedUtxo) :=
  if !avoidPartialSpends then
    utxos.map (fun u => [u])
  else
    ((groupByScript utxos).map (fun g =>
      if g.length > OUTPUT_GROUP_MAX_ENTRIES then chunksOf OUTPUT_GROUP_MAX_ENTRIES g
      else [g])).flatten

/-- Stable insertion into a sorted list, used to model `sort_unstable_by_key`
(only key-sortedness is relied on; the claims do not depend on the order of
equal keys). -/
def insertLe (le : α → α → Bool) (x : α) : List α → List α
  | [] => [x]
  | y :: ys => if le x y then x :: y :: ys else y :: insertLe le x ys

def insertionSort (le : α → α → Bool) : List α → List α
  | [] => []
  | x :: xs => insertLe le x (insertionSort le xs)

/-- The selection request.  `rand` models the caller's RNG as the stream of
values it will produce (consumed only by random policies). -/
structure CoinSelectionParams where
  requiredUtxos : List WeightedUtxo
  optionalUtxos : List WeightedUtxo
  feeRate : FeeRate
  targetAmount : Nat
  drainScript : Script
  rand : List Nat
  avoidPartialSpends : Bool
deriving Repr

/-- `LargestFirstCoinSelection::coin_select`: required groups first, optional
groups sorted ascending by total value and then reversed. -/
def largestFirstCoinSelect (params : CoinSelectionParams) :
    Except InsufficientFunds CoinSelectionResult :=
  let requiredUtxoGroup := group_utxos_if_applies params.requiredUtxos params.avoidPartialSpends
  let optionalUtxosGroup := group_utxos_if_applies params.optionalUtxos params.avoidPartialSpends
  let sortedOptional :=
    (insertionSort (fun a b => decide (groupValue a ≤ groupValue b)) optionalUtxosGroup).reverse
  let utxos := requiredUtxoGroup.map (fun g => (true, g)) ++
    sortedOptional.map (fun g => (false, g))
  select_sorted_utxos utxos params.feeRate params.targetAmount params.drainScript

/-- The sort key of `OldestFirstCoinSelection`: the chain position of the first
UTXO of the group (`group[0]`; groups produced by `group_utxos_if_applies` are
never empty, the `none` fallback for an empty group is unreachable). -/
def oldestSortKey (g : List WeightedUtxo) : Option ChainPosition :=
  match g.head? with
  | some w => w.utxo.chainPositionKey
  | none => none

/-- Rust's derived `Ord` on `Option`: `None` precedes every `Some`. -/
def optionCpLe : Option ChainPosition → Option ChainPosition → Bool
  | none, _ => true
  | some _, none => false
  | some a, some b => a.le b

/-- `OldestFirstCoinSelection::coin_select`: required groups first, optional
groups sorted ascending by the first UTXO's `Option<ChainPosition>`. -/
def oldestFirstCoinSelect (params : CoinSelectionParams) :
    Except InsufficientFunds CoinSelectionResult :=
  let requiredUtxoGroup := group_utxos_if_applies params.requiredUtxos params.avoidPartialSpends
  let optionalUtxosGroup := group_utxos_if_applies params.optionalUtxos params.avoidPartialSpends
  let sortedOptional :=
    insertionSort (fun a b => optionCpLe (oldestSortKey a) (oldestSortKey b)) optionalUtxosGroup
  let utxos := requiredUtxoGroup.map (fun g => (true, g)) ++
    sortedOptional.map (fun g => (false, g))
  select_sorted_utxos utxos params.feeRate params.targetAmount params.drainScript

/-- Swap two positions of a list (no-op when either index is out of range). -/
def listSwap (l : List α) (i j : Nat) : List α :=
  match l.get? i, l.get? j with
  | some a, some b => (l.set i b).set j a
  | _, _ => l

/-- Modelled from the spec: `shuffle_slice` lives in `wallet/utils.rs`, which is
not under `src/`; per spec §4.7 it is a Fisher–Yates shuffle driven by the
supplied uniform random source (the `k`-th draw, reduced mod `i + 1`, picks the
element swapped into position `i`). -/
def shuffleSlice (l : List α) (rand : List Nat) : List α :=
  (List.range (l.length - 1)).foldl
    (fun acc k =>
      let i := l.length - 1 - k
      listSwap acc i (rand.getD k 0 % (i + 1)))
    l

/-- `SingleRandomDraw::coin_select`: required groups first, optional groups
shuffled by the caller's RNG. -/
def singleRandomDrawCoinSelect (params : CoinSelectionParams) :
    Except InsufficientFunds CoinSelectionResult :=
  let requiredUtxoGroup := group_utxos_if_applies params.requiredUtxos params.avoidPartialSpends
  let optionalUtxosGroup := group_utxos_if_applies params.optionalUtxos params.avoidPartialSpends
  let shuffled := shuffleSlice optionalUtxosGroup params.rand
  let utxos := requiredUtxoGroup.map (fun g => (true, g)) ++
    shuffled.map (fun g => (false, g))
  select_sorted_utxos utxos params.feeRate params.targetAmount params.drainScript

/-- `OutputGroup`: a weighted UTXO with its spending fee and effective value at
a given fee rate. -/
structure OutputGroup where
  weightedUtxo : WeightedUtxo
  fee : Nat
  effectiveValue : Int
deriving DecidableEq, Repr

/-- `OutputGroup::new`. -/
def OutputGroup.new (w : WeightedUtxo) (feeRate : FeeRate) : OutputGroup :=
  let fee := inputFee feeRate w
  ⟨w, fee, (w.utxo.txout.value : Int) - (fee : Int)⟩

inductive BnbError where
  | noExactMatch
  | totalTriesExceeded
deriving DecidableEq, Repr

def BNB_TOTAL_TRIES : Nat := 100000

/-- Effective value of a group of output groups
(`group.iter().map(|og| og.effective_value).sum()`). -/
def groupEff (g : List OutputGroup) : Int :=
  (g.map (fun og => og.effectiveValue)).sum

/-- The mutable state of the `bnb` depth-first-search loop. -/
structure BnbState where
  currentSelection : List Bool
  currValue : Int
  currAvailableValue : Int
  bestSelection : List Bool
  bestSelectionValue : Option Int
deriving DecidableEq, Repr

/-- Recursion kernel of `popTrailingFalses`: each pop shortens the selection,
so `sel.length` steps of fuel always suffice. -/
def popTrailingFalsesAux (optionalUtxos : List (List OutputGroup)) :
    Nat → List Bool → Int → List Bool × Int
  | 0, sel, avail => (sel, avail)
  | fuel + 1, sel, avail =>
    match sel.getLast? with
    | some false =>
      popTrailingFalsesAux optionalUtxos fuel sel.dropLast
        (avail + groupEff (optionalUtxos.getD sel.dropLast.length []))
    | _ => (sel, avail)

/-- The `while let Some(false) = current_selection.last()` loop of the
backtracking step: pop trailing `false` flags, returning each popped group's
effective value to the available pool. -/
def popTrailingFalses (optionalUtxos : List (List OutputGroup)) (sel : List Bool)
    (avail : Int) : List Bool × Int :=
  popTrailingFalsesAux optionalUtxos sel.length sel avail

/-- Update of the best solution inside the feasible branch:
`best_value.is_none() || curr_value < best_value.unwrap()` replaces the best
selection by the current one. -/
def recordBest (s : BnbState) : BnbState :=
  match s.bestSelectionValue with
  | none => { s with bestSelection := s.currentSelection, bestSelectionValue := some s.currValue }
  | some b =>
    if s.currValue < b then
      { s with bestSelection := s.currentSelection, bestSelectionValue := some s.currValue }
    else s

/-- Outcome of a single iteration of the `bnb` loop: exit the loop with a state
(`break`), keep looping, or return early with an error. -/
inductive BnbStepRes where
  | brk (s : BnbState)
  | cont (s : BnbState)
  | fail (e : BnbError)
deriving DecidableEq, Repr

/-- The backtracking arm of one loop iteration: pop trailing `false` flags; if
the selection is exhausted, fail with `NoExactMatch` when no best was recorded
and otherwise break; otherwise flip the last `true` to `false` and remove that
group's effective value from `curr_value`. -/
def bnbBacktrack (optionalUtxos : List (List OutputGroup)) (s : BnbState) : BnbStepRes :=
  let (sel, avail) := popTrailingFalses optionalUtxos s.currentSelection s.currAvailableValue
  match sel.getLast? with
  | none =>
    if s.bestSelection.isEmpty then BnbStepRes.fail BnbError.noExactMatch
    else BnbStepRes.brk { s with currentSelection := sel, currAvailableValue := avail }
  | some _ =>
    let sel' := sel.dropLast ++ [false]
    let utxo := optionalUtxos.getD (sel'.length - 1) []
    BnbStepRes.cont { s with
      currentSelection := sel'
      currAvailableValue := avail
      currValue := s.currValue - groupEff utxo }

/-- The forward arm of one loop iteration: take the next undecided group out of
the available pool and explore its inclusion branch first. -/
def bnbForward (optionalUtxos : List (List OutputGroup)) (s : BnbState) : BnbStepRes :=
  let utxo := optionalUtxos.getD s.currentSelection.length []
  BnbStepRes.cont { s with
    currAvailableValue := s.currAvailableValue - groupEff utxo
    currentSelection := s.currentSelection ++ [true]
    currValue := s.currValue + groupEff utxo }

/-- One iteration of the `bnb` loop, mirroring the source's branch structure:
out-of-range values trigger a backtrack; a feasible value records the best
solution, breaking on an exact match and backtracking otherwise; anything else
moves forward. -/
def bnbStep (optionalUtxos : List (List OutputGroup))
    (targetAmount costOfChange : Int) (s : BnbState) : BnbStepRes :=
  if s.currValue + s.currAvailableValue < targetAmount ∨
      s.currValue > targetAmount + costOfChange then
    bnbBacktrack optionalUtxos s
  else if s.currValue ≥ targetAmount then
    let s' := recordBest s
    if s.currValue = targetAmount then BnbStepRes.brk s'
    else bnbBacktrack optionalUtxos s'
  else
    bnbForward optionalUtxos s

/-- The bounded `for _ in 0..BNB_TOTAL_TRIES` loop: `ok` is a normal loop exit
(break or budget exhausted), `error` an early `return Err(..)`. -/
def bnbLoop (optionalUtxos : List (List OutputGroup))
    (targetAmount costOfChange : Int) :
    Nat → BnbState → Except BnbError BnbState
  | 0, s => Except.ok s
  | fuel + 1, s =>
    match bnbStep optionalUtxos targetAmount costOfChange s with
    | .brk s' => Except.ok s'
    | .fail e => Except.error e
    | .cont s' => bnbLoop optionalUtxos targetAmount costOfChange fuel s'

/-- `calculate_cs_result`: append the required groups to the selected ones, sum
the per-UTXO fees, and flatten to the list of bare UTXOs. -/
def calculate_cs_result (selectedUtxos requiredUtxos : List (List OutputGroup))
    (excess : Excess) : CoinSelectionResult :=
  let all := selectedUtxos ++ requiredUtxos
  { selected := all.flatten.map (fun og => og.weightedUtxo.utxo)
    feeAmount := (all.flatten.map (fun og => og.fee)).sum
    excess := excess }

/-- The sort at `bnb` entry: optional groups descending by effective-value sum
(ascending sort then reversal, as in the source). -/
def bnbSortOptional (optionalUtxos : List (List OutputGroup)) : List (List OutputGroup) :=
  (insertionSort (fun a b => decide (groupEff a ≤ groupEff b)) optionalUtxos).reverse

/-- `BranchAndBoundCoinSelection::bnb`: the bounded depth-first search.  The two
partial operations of the result assembly are total here: by the loop
invariants a non-empty `best_selection` comes with `best_selection_value =
some v` and `v ≥ target`, so the `getD 0` (Rust `unwrap`) and `toNat` (Rust
`to_unsigned().expect(..)`) defaults never fire on reachable inputs. -/
def bnb (requiredUtxos optionalUtxos : List (List OutputGroup))
    (currValue currAvailableValue : Int)
    (targetAmount costOfChange : Int)
    (drainScript : Script) (feeRate : FeeRate) : Except BnbError CoinSelectionResult :=
  let optSorted := bnbSortOptional optionalUtxos
  match bnbLoop optSorted targetAmount costOfChange BNB_TOTAL_TRIES
      ⟨[], currValue, currAvailableValue, [], none⟩ with
  | .error e => Except.error e
  | .ok s =>
    if s.bestSelection.isEmpty then Except.error BnbError.totalTriesExceeded
    else
      let selectedUtxos := (optSorted.zip s.bestSelection).filterMap
        (fun p => if p.2 then some p.1 else none)
      let selectedAmount := s.bestSelectionValue.getD 0
      let remainingAmount := (selectedAmount - targetAmount).toNat
      let excess := decide_change remainingAmount feeRate drainScript
      Except.ok (calculate_cs_result selectedUtxos requiredUtxos excess)

/-! ## BnB analysis: spec-side definitions -/

/-- The groups of `opt` selected by the inclusion flags `sel` (the
`zip`/`filter_map` of the result assembly of `bnb`). -/
def chosenGroups (opt : List (List OutputGroup)) (sel : List Bool) :
    List (List OutputGroup) :=
  (opt.zip sel).filterMap (fun p => if p.2 then some p.1 else none)

/-- Effective value selected by the inclusion flags: the sum of the group
effective values at the `true` positions. -/
def selSum : List (List OutputGroup) → List Bool → Int
  | _, [] => 0
  | [], _ :: _ => 0
  | g :: gs, b :: bs => (if b then groupEff g else 0) + selSum gs bs

/-- The value recorded by one iteration of the `bnb` loop, if any: the current
value whenever the feasible branch (`target ≤ curr ≤ target + cost_of_change`,
with the reachability guard) fires. -/
def stepRecorded (targetAmount costOfChange : Int) (s : BnbState) : Option Int :=
  if s.currValue + s.currAvailableValue < targetAmount ∨
      s.currValue > targetAmount + costOfChange then none
  else if s.currValue ≥ targetAmount then some s.currValue
  else none

/-- All values the loop records along a run (the acceptable selections it
encounters). -/
def bnbRecorded (optionalUtxos : List (List OutputGroup))
    (targetAmount costOfChange : Int) : Nat → BnbState → List Int
  | 0, _ => []
  | fuel + 1, s =>
    (stepRecorded targetAmount costOfChange s).toList ++
      match bnbStep optionalUtxos targetAmount costOfChange s with
      | .cont s2 => bnbRecorded optionalUtxos targetAmount costOfChange fuel s2
      | _ => []

/-- Left fold of `min` over a list starting from an optional initial best. -/
def minFold (b : Option Int) (l : List Int) : Option Int :=
  l.foldl (fun acc x =>
    match acc with
    | none => some x
    | some a => some (min a x)) b

/-- Well-formedness of an `OutputGroup` at a fee rate: the cached fee and
effective value are the ones `OutputGroup::new` computes. -/
def ogWF (fr : FeeRate) (og : OutputGroup) : Prop :=
  og.fee = inputFee fr og.weightedUtxo ∧
  og.effectiveValue = (og.weightedUtxo.utxo.txout.value : Int) - (og.fee : Int)

/-- The output groups built from the required UTXOs inside
`BranchAndBoundCoinSelection::coin_select`. -/
def requiredOgsOf (params : CoinSelectionParams) : List (List OutputGroup) :=
  (group_utxos_if_applies params.requiredUtxos params.avoidPartialSpends).map
    (fun g => g.map (fun w => OutputGroup.new w params.feeRate))

/-- The output groups built from the optional UTXOs inside
`BranchAndBoundCoinSelection::coin_select` (non-positive effective values
dropped). -/
def optionalOgsOf (params : CoinSelectionParams) : List (List OutputGroup) :=
  (group_utxos_if_applies params.optionalUtxos params.avoidPartialSpends).map
    (fun g => (g.map (fun w => OutputGroup.new w params.feeRate)).filter
      (fun og => 0 < og.effectiveValue))

/-- The summed effective value of the required output groups (`curr_value` at
`bnb` entry). -/
def requiredEffSum (params : CoinSelectionParams) : Int :=
  ((requiredOgsOf params).flatten.map (fun og => og.effectiveValue)).sum

/-- Invariant of the `bnb` loop relative to the initial current value `cv0`:
the current value is `cv0` plus the selected effective value; any recorded best
value lies in the acceptance window and equals `cv0` plus the best selection's
effective value; and a non-empty best selection comes with a recorded value. -/
def BnbInv (opt : List (List OutputGroup)) (target coc cv0 : Int) (s : BnbState) : Prop :=
  s.currValue = cv0 + selSum opt s.currentSelection ∧
  (∀ v, s.bestSelectionValue = some v →
    target ≤ v ∧ v ≤ target + coc ∧ v = cv0 + selSum opt s.bestSelection) ∧
  (s.bestSelection ≠ [] → s.bestSelectionValue.isSome = true)


/-- `BranchAndBoundCoinSelection::coin_select` for a given `size_of_change` and
fallback algorithm: build output groups (dropping optional UTXOs with
non-positive effective value), run the two feasibility pre-checks, then the
search, falling back on any `BnbError`. -/
def branchAndBoundCoinSelect (sizeOfChange : Nat)
    (fallbackAlgorithm : CoinSelectionParams → Except InsufficientFunds CoinSelectionResult)
    (params : CoinSelectionParams) : Except InsufficientFunds CoinSelectionResult :=
  let requiredOgs := requiredOgsOf params
  let optionalOgs := optionalOgsOf params
  let currValue := (requiredOgs.flatten.map (fun og => og.effectiveValue)).sum
  let currAvailableValue := (optionalOgs.flatten.map (fun og => og.effectiveValue)).sum
  let costOfChange : Int :=
    (params.feeRate.mulWeight (weightFromVb sizeOfChange) : Nat)
  if currAvailableValue + currValue < (params.targetAmount : Int) then
    let consideredGroups := requiredOgs ++ optionalOgs
    let utxoFees := (consideredGroups.flatten.map (fun og => og.fee)).sum
    let utxoValue :=
      (consideredGroups.flatten.map (fun og => og.weightedUtxo.utxo.txout.value)).sum
    Except.error ⟨params.targetAmount + utxoFees, utxoValue⟩
  else if (params.targetAmount : Int) < currValue then
    let remainingAmount := (currValue - (params.targetAmount : Int)).toNat
    let excess := decide_change remainingAmount params.feeRate params.drainScript
    Except.ok (calculate_cs_result [] requiredOgs excess)
  else
    match bnb requiredOgs optionalOgs currValue currAvailableValue
        (params.targetAmount : Int) costOfChange params.drainScript params.feeRate with
    | .ok r => Except.ok r
    | .error _ => fallbackAlgorithm params

/-- Spec-side invariant of a successful selection (spec §3 "Invariants", §8
universal invariant 1): the selected value covers target plus input fees, and
the reported fee is exactly the sum of the per-input fees
(`fee_rate × (default segwit input weight + satisfaction_weight)`) of the
selected UTXOs, each taken with its caller-supplied satisfaction weight: the
selection is the projection of a list of weighted UTXOs drawn from the
caller's `inputUtxos`. -/
def resultInvariant (feeRate : FeeRate) (targetAmount : Nat)
    (inputUtxos : List WeightedUtxo) (res : CoinSelectionResult) : Prop :=
  targetAmount + res.feeAmount ≤ (res.selected.map (fun u => u.txout.value)).sum ∧
  ∃ ws : List WeightedUtxo,
    (∀ w ∈ ws, w ∈ inputUtxos) ∧
    res.selected = ws.map (fun w => w.utxo) ∧
    res.feeAmount = (ws.map (inputFee feeRate)).sum

/-- One pass of `filter_duplicates`: keep the UTXOs whose outpoint is newly
inserted into the visited set, threading the set through. -/
def filterDupPass (visited : List OutPoint) :
    List WeightedUtxo → List WeightedUtxo × List OutPoint
  | [] => ([], visited)
  | u :: us =>
    if u.utxo.outpoint ∈ visited then filterDupPass visited us
    else
      let (kept, visited') := filterDupPass (u.utxo.outpoint :: visited) us
      (u :: kept, visited')

/-- `filter_duplicates`: walk `required` then `optional` through a shared
visited set of outpoints, keeping first occurrences only. -/
def filter_duplicates (required optional : List WeightedUtxo) :
    List WeightedUtxo × List WeightedUtxo :=
  let (required', visited) := filterDupPass [] required
  let (optional', _) := filterDupPass visited optional
  (required', optional')

/-- The script key of a group: the script bytes of its first member. -/
def groupKey (g : List WeightedUtxo) : Option (List Nat) :=
  g.head?.map spkBytes

/-- Invariant of the partition accumulator of `groupByScript`: groups are
non-empty, every member carries the group's key, and keys are pairwise
distinct. -/
def GroupsInv (acc : List (List WeightedUtxo)) : Prop :=
  (∀ g ∈ acc, g ≠ []) ∧
  (∀ g ∈ acc, ∀ u ∈ g, groupKey g = some (spkBytes u)) ∧
  acc.Pairwise (fun g1 g2 => groupKey g1 ≠ groupKey g2)

/-- Spec-side (§4.9): walk a list keeping only the first occurrence of each
outpoint, given an already-seen set. -/
def keepFirstFrom (seen : List OutPoint) : List WeightedUtxo → List WeightedUtxo
  | [] => []
  | u :: us =>
    if u.utxo.outpoint ∈ seen then keepFirstFrom seen us
    else u :: keepFirstFrom (u.utxo.outpoint :: seen) us

/-! ## Sample inputs used by witnesses and counterexamples -/

/-- An empty drain script with the standard non-segwit dust threshold. -/
def sampleScript : Script := ⟨[], 546⟩

def sampleUtxo (value txid : Nat) : WeightedUtxo :=
  ⟨Utxo.local ⟨txid, 0⟩ ⟨value, sampleScript⟩ (ChainPosition.unconfirmed 0), 107⟩

def sampleForeign (value txid : Nat) : WeightedUtxo :=
  ⟨Utxo.foreign ⟨txid, 0⟩ ⟨value, sampleScript⟩, 107⟩

def sampleConfirmed (value txid height : Nat) : WeightedUtxo :=
  ⟨Utxo.local ⟨txid, 0⟩ ⟨value, sampleScript⟩ (ChainPosition.confirmed height 0), 107⟩

/-! ## Lemmas about the sorted-selection driver -/

theorem groupValue_append (a b : List WeightedUtxo) :
    groupValue (a ++ b) = groupValue a + groupValue b := by
  simp [groupValue]

theorem groupFees_append (r : FeeRate) (a b : List WeightedUtxo) :
    groupFees r (a ++ b) = groupFees r a + groupFees r b := by
  simp [groupFees]

/-- The scan accumulators equal the initial values plus value/fee of all taken
groups. -/
theorem selectScan_spec (feeRate : FeeRate) (targetAmount : Nat) :
    ∀ (utxos : List (Bool × List WeightedUtxo)) (s0 f0 : Nat)
      (gs : List (List WeightedUtxo)) (s f : Nat),
      selectScan feeRate targetAmount utxos s0 f0 = (gs, s, f) →
      s = s0 + groupValue gs.flatten ∧ f = f0 + groupFees feeRate gs.flatten := by
  intro utxos
  induction utxos with
  | nil =>
    intro s0 f0 gs s f hsel
    simp only [selectScan, Prod.mk.injEq] at hsel
    obtain ⟨h1, h2, h3⟩ := hsel
    subst h1; subst h2; subst h3
    simp [groupValue, groupFees]
  | cons hd tl ih =>
    intro s0 f0 gs s f hsel
    obtain ⟨mustUse, group⟩ := hd
    by_cases h : (mustUse || decide (s0 < targetAmount + f0)) = true
    · simp only [selectScan, h, if_pos] at hsel
      rcases hr : selectScan feeRate targetAmount tl (s0 + groupValue group)
          (f0 + groupFees feeRate group) with ⟨gs1, s1, f1⟩
      rw [hr] at hsel
      simp only [Prod.mk.injEq] at hsel
      obtain ⟨h1, h2, h3⟩ := hsel
      subst h1; subst h2; subst h3
      have := ih (s0 + groupValue group) (f0 + groupFees feeRate group) gs1 s1 f1 hr
      simp only [List.flatten_cons, groupValue_append, groupFees_append]
      omega
    · simp only [selectScan, h, if_neg, Bool.false_eq_true, not_false_iff,
        Prod.mk.injEq] at hsel
      obtain ⟨h1, h2, h3⟩ := hsel
      subst h1; subst h2; subst h3
      simp [groupValue, groupFees]

/-- Every group the scan takes comes from the input pair list. -/
theorem selectScan_taken (feeRate : FeeRate) (targetAmount : Nat) :
    ∀ (utxos : List (Bool × List WeightedUtxo)) (s0 f0 : Nat)
      (gs : List (List WeightedUtxo)) (s f : Nat),
      selectScan feeRate targetAmount utxos s0 f0 = (gs, s, f) →
      ∀ g ∈ gs, ∃ mu, (mu, g) ∈ utxos := by
  intro utxos
  induction utxos with
  | nil =>
    intro s0 f0 gs s f hsel
    simp only [selectScan, Prod.mk.injEq] at hsel
    obtain ⟨h1, _, _⟩ := hsel
    subst h1
    intro g hg
    simp at hg
  | cons hd tl ih =>
    intro s0 f0 gs s f hsel
    obtain ⟨mustUse, group⟩ := hd
    by_cases h : (mustUse || decide (s0 < targetAmount + f0)) = true
    · simp only [selectScan, h, if_pos] at hsel
      rcases hr : selectScan feeRate targetAmount tl (s0 + groupValue group)
          (f0 + groupFees feeRate group) with ⟨gs1, s1, f1⟩
      rw [hr] at hsel
      simp only [Prod.mk.injEq] at hsel
      obtain ⟨h1, _, _⟩ := hsel
      subst h1
      intro g hg
      rcases List.mem_cons.mp hg with hg | hg
      · subst hg
        exact ⟨mustUse, by simp⟩
      · obtain ⟨mu, hmu⟩ := ih (s0 + groupValue group) (f0 + groupFees feeRate group)
          gs1 s1 f1 hr g hg
      

        exact ⟨mu, by simp [hmu]⟩
    · simp only [selectScan, h, if_neg, Bool.false_eq_true, not_false_iff,
        Prod.mk.injEq] at hsel
      obtain ⟨h1, _, _⟩ := hsel
      subst h1
      intro g hg
      simp at hg

/-- Projecting taken groups to bare UTXOs commutes with flattening. -/
theorem flatten_map_utxo (gs : List (List WeightedUtxo)) :
    (gs.map (fun g => g.map (fun w => w.utxo))).flatten =
      gs.flatten.map (fun w => w.utxo) := by
  induction gs with
  | nil => rfl
  | cons g tl ih => simp only [List.map_cons, List.flatten_cons, List.map_append, ih]

/-- The value sum of the projected UTXOs is the group value of the weighted
list. -/
theorem value_sum_map_utxo (ws : List WeightedUtxo) :
    ((ws.map (fun w => w.utxo)).map (fun u => u.txout.value)).sum = groupValue ws := by
  induction ws with
  | nil => rfl
  | cons w tl ih =>
    simp only [List.map_cons, List.sum_cons, groupValue] at ih ⊢
    omega

/-- Successful driver runs on groups drawn from `inputUtxos` satisfy the
universal selection invariant. -/
theorem select_sorted_utxos_ok (utxos : List (Bool × List WeightedUtxo))
    (feeRate : FeeRate) (targetAmount : Nat) (drainScript : Script)
    (inputUtxos : List WeightedUtxo) (res : CoinSelectionResult)
    (hsrc : ∀ p ∈ utxos, ∀ w ∈ p.2, w ∈ inputUtxos)
    (h : select_sorted_utxos utxos feeRate targetAmount drainScript = Except.ok res) :
    resultInvariant feeRate targetAmount inputUtxos res := by
  unfold select_sorted_utxos at h
  rcases hs : selectScan feeRate targetAmount utxos 0 0 with ⟨gs, s, f⟩
  have hspec := selectScan_spec feeRate targetAmount utxos 0 0 gs s f hs
  have htaken := selectScan_taken feeRate targetAmount utxos 0 0 gs s f hs
  rw [hs] at h
  simp only at h
  by_cases hlt : s < targetAmount + f
  · simp [hlt] at h
  · simp only [hlt, if_neg, not_false_iff, Except.ok.injEq] at h
    subst h
    refine ⟨?_, gs.flatten, ?_, ?_, ?_⟩
    · simp only [flatten_map_utxo, value_sum_map_utxo]
      omega
    · intro w hw
      rcases List.mem_flatten.mp hw with ⟨g, hg, hwg⟩
      obtain ⟨mu, hmu⟩ := htaken g hg
      exact hsrc (mu, g) hmu w hwg
    · simp only [flatten_map_utxo]
    · simp only [groupFees] at hspec
      have := hspec.2
      simp only [groupFees]
      omega

/-- Groups flagged `must_use` placed before all optional groups are always
taken, in order, at the front of the scan output. -/
theorem selectScan_required (feeRate : FeeRate) (targetAmount : Nat) :
    ∀ (reqs : List (List WeightedUtxo)) (rest : List (Bool × List WeightedUtxo))
      (s0 f0 : Nat) (gs : List (List WeightedUtxo)) (s f : Nat),
      selectScan feeRate targetAmount (reqs.map (fun g => (true, g)) ++ rest) s0 f0 =
        (gs, s, f) →
      ∃ gs1, gs = reqs ++ gs1 ∧
        selectScan feeRate targetAmount rest (s0 + groupValue reqs.flatten)
          (f0 + groupFees feeRate reqs.flatten) = (gs1, s, f) := by
  intro reqs
  induction reqs with
  | nil =>
    intro rest s0 f0 gs s f hsel
    refine ⟨gs, by simp, ?_⟩
    simpa [groupValue, groupFees] using hsel
  | cons g tl ih =>
    intro rest s0 f0 gs s f hsel
    simp only [List.map_cons, List.cons_append, selectScan, Bool.true_or, if_pos,
      List.append_eq] at hsel
    rcases hr : selectScan feeRate targetAmount (tl.map (fun g => (true, g)) ++ rest)
        (s0 + groupValue g) (f0 + groupFees feeRate g) with ⟨gs1, s1, f1⟩
    rw [hr] at hsel
    simp only [Prod.mk.injEq] at hsel
    obtain ⟨h1, h2, h3⟩ := hsel
    subst h1; subst h2; subst h3
    obtain ⟨gs2, hgs2, hrec⟩ := ih rest (s0 + groupValue g) (f0 + groupFees feeRate g)
      gs1 s1 f1 hr
    subst hgs2
    refine ⟨gs2, by simp, ?_⟩
    rw [List.flatten_cons, groupValue_append, groupFees_append,
      ← Nat.add_assoc, ← Nat.add_assoc]
    exact hrec
/-! ## C3: the change decider -/

/-- C3: `decide_change` computes `change_fee = fee_rate ×
weight_from_vbytes(serialized script length + 8)` and `drain_value = max(0,
remaining − change_fee)`; it returns `NoChange { dust_threshold, remaining,
change_fee }` exactly when `drain_value ≤ dust_threshold(drain_script)`, and
otherwise returns `Change { amount := drain_value, fee := change_fee }` with
`amount` strictly above the dust threshold and `amount + fee = remaining`. -/
theorem decide_change_characterization (remainingAmount : Nat) (feeRate : FeeRate)
    (drainScript : Script) :
    (decide_change remainingAmount feeRate drainScript =
        Excess.noChange drainScript.minimalNonDust remainingAmount
          (feeRate.mulWeight (weightFromVb (drainScript.serializedLen + 8))) ↔
      remainingAmount - feeRate.mulWeight (weightFromVb (drainScript.serializedLen + 8)) ≤
        drainScript.minimalNonDust) ∧
    (drainScript.minimalNonDust <
        remainingAmount - feeRate.mulWeight (weightFromVb (drainScript.serializedLen + 8)) →
      decide_change remainingAmount feeRate drainScript =
        Excess.change
          (remainingAmount - feeRate.mulWeight (weightFromVb (drainScript.serializedLen + 8)))
          (feeRate.mulWeight (weightFromVb (drainScript.serializedLen + 8)))) ∧
    (∀ amount fee,
      decide_change remainingAmount feeRate drainScript = Excess.change amount fee →
      drainScript.minimalNonDust < amount ∧ amount + fee = remainingAmount) := by
  set cf := feeRate.mulWeight (weightFromVb (drainScript.serializedLen + 8)) with hcf
  have hunfold : decide_change remainingAmount feeRate drainScript =
      if isDust (remainingAmount - cf) drainScript then
        Excess.noChange drainScript.minimalNonDust remainingAmount cf
      else Excess.change (remainingAmount - cf) cf := rfl
  by_cases hd : remainingAmount - cf ≤ drainScript.minimalNonDust
  · have ht : isDust (remainingAmount - cf) drainScript = true := by
      simp [isDust, hd]
    rw [hunfold, ht, if_pos rfl]
    refine ⟨by simp [hd], ?_, ?_⟩
    · intro hcontra
      omega
    · intro amount fee hcontra
      simp at hcontra
  · have ht : isDust (remainingAmount - cf) drainScript = false := by
      simp only [isDust, decide_eq_false_iff_not]
      omega
    rw [hunfold, ht, if_neg (by simp)]
    refine ⟨⟨fun hc => by simp at hc, fun hle => absurd hle hd⟩, fun _ => rfl, ?_⟩
    intro amount fee heq
    injection heq with h1 h2
    subst h1; subst h2
    constructor
    · omega
    · omega

/-- Witness for C3 at a concrete input: remaining 300 sats at 1 sat/vB with an
empty drain script (change fee 9, drain value 291, dust threshold 546) takes
the `NoChange` branch. -/
theorem decide_change_characterization_witness :
    decide_change 300 ⟨250⟩ ⟨[], 546⟩ = Excess.noChange 546 300 9 := by
  have h := (decide_change_characterization 300 ⟨250⟩ ⟨[], 546⟩).1
  exact h.mpr (by decide)

/-! ## C10: largest-first and oldest-first ignore the RNG -/

/-- C10: `LargestFirstCoinSelection` and `OldestFirstCoinSelection` never read
the supplied random source: two runs on the same parameters that differ only in
the RNG stream return the same result. -/
theorem sorted_policies_ignore_rng (params : CoinSelectionParams)
    (rand1 rand2 : List Nat) :
    largestFirstCoinSelect { params with rand := rand1 } =
      largestFirstCoinSelect { params with rand := rand2 } ∧
    oldestFirstCoinSelect { params with rand := rand1 } =
      oldestFirstCoinSelect { params with rand := rand2 } :=
  ⟨rfl, rfl⟩

/-! ## C5: the oldest-first ordering of foreign UTXOs -/

/-- C5 (divergence): the source comment promises foreign UTXOs "will have
lowest priority to be selected", but the sort key is `Option<ChainPosition>`
with `None` for foreign UTXOs, and Rust orders `None` before every `Some`: a
foreign UTXO is selected ahead of a confirmed local one.  Here one foreign and
one height-1 confirmed UTXO (both 100 000 sats) are optional with target
50 000 at zero fee rate: the returned selection is the foreign UTXO alone. -/
theorem oldest_first_prefers_foreign :
    oldestFirstCoinSelect
        { requiredUtxos := []
          optionalUtxos := [sampleConfirmed 100000 1 1, sampleForeign 100000 2]
          feeRate := ⟨0⟩
          targetAmount := 50000
          drainScript := sampleScript
          rand := []
          avoidPartialSpends := false } =
      Except.ok ⟨[(sampleForeign 100000 2).utxo], 0, Excess.change 50000 0⟩ ∧
    (sampleConfirmed 100000 1 1).utxo ∉ [(sampleForeign 100000 2).utxo] := by
  constructor
  · rfl
  · decide

/-! ## C4: must-use groups and the early stop of the driver -/

/-- C4 (counterexample): Rust's `Iterator::scan` ends the iteration at the
first declined group, so a `must_use` group placed after a declined optional
group is dropped: with target 0 the first (optional) group is declined
immediately and the trailing must-use group never enters the selection. -/
theorem must_use_after_declined_group_dropped :
    select_sorted_utxos [(false, [sampleUtxo 5 0]), (true, [sampleUtxo 7 1])]
        ⟨0⟩ 0 sampleScript =
      Except.ok ⟨[], 0, Excess.noChange 546 0 0⟩ ∧
    ((⟨[], 0, Excess.noChange 546 0 0⟩ : CoinSelectionResult).selected.contains
        (sampleUtxo 7 1).utxo) = false := by
  constructor
  · rfl
  · decide

/-- C4 (amended): when every `must_use` group precedes the optional groups —
which holds for every caller in the source — all must-use groups are fully
included at the front of the selection, regardless of their effective value. -/
theorem must_use_groups_included (requiredGroups optionalGroups : List (List WeightedUtxo))
    (feeRate : FeeRate) (targetAmount : Nat) (drainScript : Script)
    (res : CoinSelectionResult)
    (h : select_sorted_utxos
        (requiredGroups.map (fun g => (true, g)) ++ optionalGroups.map (fun g => (false, g)))
        feeRate targetAmount drainScript = Except.ok res) :
    ∃ rest, res.selected = requiredGroups.flatten.map (fun w => w.utxo) ++ rest := by
  unfold select_sorted_utxos at h
  rcases hs : selectScan feeRate targetAmount
      (requiredGroups.map (fun g => (true, g)) ++ optionalGroups.map (fun g => (false, g)))
      0 0 with ⟨gs, s, f⟩
  rw [hs] at h
  obtain ⟨gs1, hgs1, _⟩ := selectScan_required feeRate targetAmount requiredGroups
    (optionalGroups.map (fun g => (false, g))) 0 0 gs s f hs
  subst hgs1
  simp only at h
  by_cases hlt : s < targetAmount + f
  · simp [hlt] at h
  · simp only [hlt, if_neg, not_false_iff, Except.ok.injEq] at h
    subst h
    refine ⟨gs1.flatten.map (fun w => w.utxo), ?_⟩
    rw [flatten_map_utxo, List.flatten_append, List.map_append]

/-- Witness for C4's amended theorem: one required group of value 7 with target
0 at zero fee rate; the required UTXO heads the selection. -/
theorem must_use_groups_included_witness :
    ∃ rest, (⟨[(sampleUtxo 7 1).utxo], 0, Excess.noChange 546 7 0⟩ :
        CoinSelectionResult).selected =
      [[sampleUtxo 7 1]].flatten.map (fun w => w.utxo) ++ rest :=
  must_use_groups_included [[sampleUtxo 7 1]] [] ⟨0⟩ 0 sampleScript
    ⟨[(sampleUtxo 7 1).utxo], 0, Excess.noChange 546 7 0⟩ rfl

/-! ## C7: grouping by script -/

theorem groupKey_append_singleton (g : List WeightedUtxo) (w : WeightedUtxo)
    (hg : g ≠ []) : groupKey (g ++ [w]) = groupKey g := by
  cases g with
  | nil => exact absurd rfl hg
  | cons x xs => simp [groupKey]

/-- Keys of groups after an insertion: either an old key or the inserted
UTXO's script. -/
theorem addToGroups_keys (w : WeightedUtxo) :
    ∀ acc, (∀ g ∈ acc, g ≠ []) → ∀ g1, g1 ∈ addToGroups w acc →
      groupKey g1 ∈ acc.map groupKey ∨ groupKey g1 = some (spkBytes w) := by
  intro acc
  induction acc with
  | nil =>
    intro _ g1 hg1
    simp only [addToGroups, List.mem_singleton] at hg1
    subst hg1
    right
    rfl
  | cons g gs ih =>
    intro hne g1 hg1
    by_cases hk : groupKey g = some (spkBytes w)
    · have hc : Option.map spkBytes g.head? = some (spkBytes w) := hk
      simp only [addToGroups] at hg1
      rw [if_pos hc] at hg1
      rcases List.mem_cons.mp hg1 with h1 | h1
      · subst h1
        left
        rw [groupKey_append_singleton g w (hne g (by simp))]
        simp
      · left
        simp only [List.map_cons, List.mem_cons]
        exact Or.inr (List.mem_map.mpr ⟨g1, h1, rfl⟩)
    · have hc : ¬ Option.map spkBytes g.head? = some (spkBytes w) := hk
      simp only [addToGroups] at hg1
      rw [if_neg hc] at hg1
      rcases List.mem_cons.mp hg1 with h1 | h1
      · subst h1
        left
        simp
      · rcases ih (fun g2 hg2 => hne g2 (by simp [hg2])) g1 h1 with h2 | h2
        · left
          simp only [List.map_cons, List.mem_cons]
          exact Or.inr (by simpa using h2)
        · right
          exact h2

/-- `addToGroups` preserves the partition invariant. -/
theorem addToGroups_inv (w : WeightedUtxo) :
    ∀ acc, GroupsInv acc → GroupsInv (addToGroups w acc) := by
  intro acc
  induction acc with
  | nil =>
    intro _
    refine ⟨?_, ?_, ?_⟩
    · intro g hg
      simp only [addToGroups, List.mem_singleton] at hg
      subst hg
      simp
    · intro g hg u hu
      simp only [addToGroups, List.mem_singleton] at hg
      subst hg
      simp only [List.mem_singleton] at hu
      subst hu
      rfl
    · simp [addToGroups]
  | cons g gs ih =>
    intro hinv
    obtain ⟨hne, hkey, hpw⟩ := hinv
    have hgne : g ≠ [] := hne g (by simp)
    have hpw' := List.pairwise_cons.mp hpw
    by_cases hk : groupKey g = some (spkBytes w)
    · have hc : Option.map spkBytes g.head? = some (spkBytes w) := hk
      simp only [addToGroups]
      rw [if_pos hc]
      have hkeyeq := groupKey_append_singleton g w hgne
      refine ⟨?_, ?_, ?_⟩
      · intro g1 hg1
        rcases List.mem_cons.mp hg1 with h1 | h1
        · subst h1
          simp
        · exact hne g1 (by simp [h1])
      · intro g1 hg1 u hu
        rcases List.mem_cons.mp hg1 with h1 | h1
        · subst h1
          rw [hkeyeq]
          rcases List.mem_append.mp hu with h2 | h2
          · exact hkey g (by simp) u h2
          · simp only [List.mem_singleton] at h2
            subst h2
            exact hk
        · exact hkey g1 (by simp [h1]) u hu
      · rw [List.pairwise_cons]
        refine ⟨?_, hpw'.2⟩
        intro g2 hg2
        rw [hkeyeq]
        exact hpw'.1 g2 hg2
    · have hc : ¬ Option.map spkBytes g.head? = some (spkBytes w) := hk
      simp only [addToGroups]
      rw [if_neg hc]
      have hinvtail : GroupsInv gs :=
        ⟨fun g2 hg2 => hne g2 (by simp [hg2]),
         fun g2 hg2 => hkey g2 (by simp [hg2]), hpw'.2⟩
      obtain ⟨ihne, ihkey, ihpw⟩ := ih hinvtail
      refine ⟨?_, ?_, ?_⟩
      · intro g1 hg1
        rcases List.mem_cons.mp hg1 with h1 | h1
        · subst h1
          exact hgne
        · exact ihne g1 h1
      · intro g1 hg1 u hu
        rcases List.mem_cons.mp hg1 with h1 | h1
        · subst h1
          exact hkey g1 (by simp) u hu
        · exact ihkey g1 h1 u hu
      · rw [List.pairwise_cons]
        refine ⟨?_, ihpw⟩
        intro g2 hg2
        rcases addToGroups_keys w gs (fun g3 hg3 => hne g3 (by simp [hg3])) g2 hg2
            with h2 | h2
        · intro hcon
          rcases List.mem_map.mp h2 with ⟨g3, hg3, hkg3⟩
          exact hpw'.1 g3 hg3 (hcon.trans hkg3.symm)
        · intro hcon
          exact hk (hcon.trans h2)

/-- Per-key contents after an insertion. -/
theorem addToGroups_filter (w : WeightedUtxo) (k : List Nat) :
    ∀ acc, GroupsInv acc →
      ((addToGroups w acc).filter (fun g => decide (groupKey g = some k))).flatten =
        ((acc.filter (fun g => decide (groupKey g = some k))).flatten) ++
          (if spkBytes w = k then [w] else []) := by
  intro acc
  induction acc with
  | nil =>
    by_cases hwk : spkBytes w = k
    · intro _
      simp [addToGroups, groupKey, hwk]
    · intro _
      simp [addToGroups, groupKey, hwk]
  | cons g gs ih =>
    intro hinv
    obtain ⟨hne, hkey, hpw⟩ := hinv
    have hgne : g ≠ [] := hne g (by simp)
    have hpw' := List.pairwise_cons.mp hpw
    have hinvtail : GroupsInv gs :=
      ⟨fun g2 hg2 => hne g2 (by simp [hg2]),
       fun g2 hg2 => hkey g2 (by simp [hg2]), hpw'.2⟩
    by_cases hk : groupKey g = some (spkBytes w)
    · have hc : Option.map spkBytes g.head? = some (spkBytes w) := hk
      simp only [addToGroups]
      rw [if_pos hc]
      have hkeyeq := groupKey_append_singleton g w hgne
      have htailnil : (gs.filter (fun g2 => decide (groupKey g2 = some (spkBytes w)))) = [] := by
        apply List.filter_eq_nil_iff.mpr
        intro g2 hg2
        simp only [decide_eq_true_eq]
        intro hcon
        exact hpw'.1 g2 hg2 (hk.trans hcon.symm)
      rw [List.filter_cons, List.filter_cons]
      simp only [decide_eq_true_eq]
      by_cases hwk : groupKey g = some k
      · have hkw : spkBytes w = k := by
          rw [hk] at hwk
          exact Option.some.inj hwk
        rw [if_pos (hkeyeq.trans hwk), if_pos hwk, if_pos hkw]
        subst hkw
        rw [htailnil]
        simp
      · have hkw : ¬ spkBytes w = k := by
          intro hcon
          rw [hcon] at hk
          exact hwk hk
        rw [if_neg (fun hcon => hwk (hkeyeq.symm.trans hcon)), if_neg hwk, if_neg hkw]
        simp
    · have hc : ¬ Option.map spkBytes g.head? = some (spkBytes w) := hk
      simp only [addToGroups]
      rw [if_neg hc]
      rw [List.filter_cons, List.filter_cons]
      simp only [decide_eq_true_eq]
      by_cases hgk : groupKey g = some k
      · rw [if_pos hgk, if_pos hgk]
        simp only [List.flatten_cons]
        rw [ih hinvtail, List.append_assoc]
      · rw [if_neg hgk, if_neg hgk]
        exact ih hinvtail

/-- The fold of `groupByScript` preserves the invariant and accumulates, per
key, exactly the input UTXOs carrying that script, in order. -/
theorem groupByScript_fold (l : List WeightedUtxo) :
    ∀ acc, GroupsInv acc →
      GroupsInv (l.foldl (fun a w => addToGroups w a) acc) ∧
      ∀ k, (((l.foldl (fun a w => addToGroups w a) acc).filter
            (fun g => decide (groupKey g = some k))).flatten) =
          ((acc.filter (fun g => decide (groupKey g = some k))).flatten) ++
            l.filter (fun u => decide (spkBytes u = k)) := by
  induction l with
  | nil =>
    intro acc hinv
    exact ⟨hinv, fun k => by simp⟩
  | cons w l ih =>
    intro acc hinv
    have hinv' := addToGroups_inv w acc hinv
    obtain ⟨ihinv, ihfil⟩ := ih (addToGroups w acc) hinv'
    refine ⟨ihinv, ?_⟩
    intro k
    simp only [List.foldl_cons] at ihfil ⊢
    rw [ihfil k, addToGroups_filter w k acc hinv, List.append_assoc,
      List.filter_cons]
    simp only [decide_eq_true_eq]
    by_cases hwk : spkBytes w = k
    · rw [if_pos hwk, if_pos hwk]
      simp
    · rw [if_neg hwk, if_neg hwk]
      simp

theorem groupByScript_inv (l : List WeightedUtxo) : GroupsInv (groupByScript l) :=
  (groupByScript_fold l [] ⟨by simp, by simp, List.Pairwise.nil⟩).1

theorem groupByScript_filter (l : List WeightedUtxo) (k : List Nat) :
    (((groupByScript l).filter (fun g => decide (groupKey g = some k))).flatten) =
      l.filter (fun u => decide (spkBytes u = k)) := by
  have := (groupByScript_fold l [] ⟨by simp, by simp, List.Pairwise.nil⟩).2 k
  simpa [groupByScript] using this

/-- `chunksOfAux` with enough fuel splits the list into chunks whose
concatenation is the original list. -/
theorem chunksOfAux_flatten (n : Nat) (hn : n ≠ 0) :
    ∀ (fuel : Nat) (l : List α), l.length ≤ fuel → (chunksOfAux n fuel l).flatten = l := by
  intro fuel
  induction fuel with
  | zero =>
    intro l hl
    have : l = [] := List.eq_nil_of_length_eq_zero (Nat.le_zero.mp hl)
    subst this
    rfl
  | succ m ih =>
    intro l hl
    cases l with
    | nil => rfl
    | cons x xs =>
      simp only [List.length_cons] at hl
      simp only [chunksOfAux, List.flatten_cons]
      rw [ih ((x :: xs).drop n)
        (by simp only [List.length_drop, List.length_cons]; omega)]
      exact List.take_append_drop n (x :: xs)

theorem chunksOf_flatten (n : Nat) (hn : n ≠ 0) (l : List α) :
    (chunksOf n l).flatten = l :=
  chunksOfAux_flatten n hn l.length l Nat.le.refl

/-- Chunks are non-empty, bounded by `n`, and drawn from the original list. -/
theorem chunksOfAux_mem (n : Nat) (hn : n ≠ 0) :
    ∀ (fuel : Nat) (l : List α) (c : List α), c ∈ chunksOfAux n fuel l →
      c ≠ [] ∧ c.length ≤ n ∧ ∀ u ∈ c, u ∈ l := by
  intro fuel
  induction fuel with
  | zero =>
    intro l c hc
    simp [chunksOfAux] at hc
  | succ m ih =>
    intro l c hc
    cases l with
    | nil => simp [chunksOfAux] at hc
    | cons x xs =>
      simp only [chunksOfAux, List.mem_cons] at hc
      rcases hc with hc | hc
      · subst hc
        refine ⟨?_, ?_, ?_⟩
        · simp [List.take_eq_nil_iff, hn]
        · simp [List.length_take]
        · intro u hu
          exact List.take_subset n (x :: xs) hu
      · obtain ⟨h1, h2, h3⟩ := ih ((x :: xs).drop n) c hc
        exact ⟨h1, h2, fun u hu => List.drop_subset n (x :: xs) (h3 u hu)⟩

theorem chunksOf_mem (n : Nat) (hn : n ≠ 0) (l : List α) (c : List α)
    (hc : c ∈ chunksOf n l) : c ≠ [] ∧ c.length ≤ n ∧ ∀ u ∈ c, u ∈ l :=
  chunksOfAux_mem n hn l.length l c hc

/-- Members of groups after an insertion are the inserted UTXO or old
members. -/
theorem addToGroups_members (w : WeightedUtxo) :
    ∀ (acc : List (List WeightedUtxo)) (g : List WeightedUtxo) (u : WeightedUtxo),
      g ∈ addToGroups w acc → u ∈ g → u = w ∨ ∃ g0 ∈ acc, u ∈ g0 := by
  intro acc
  induction acc with
  | nil =>
    intro g u hg hu
    simp only [addToGroups, List.mem_singleton] at hg
    subst hg
    simp only [List.mem_singleton] at hu
    exact Or.inl hu
  | cons a as ih =>
    intro g u hg hu
    by_cases hk : a.head?.map spkBytes = some (spkBytes w)
    · simp only [addToGroups] at hg
      rw [if_pos hk] at hg
      rcases List.mem_cons.mp hg with hg | hg
      · subst hg
        rcases List.mem_append.mp hu with hu | hu
        · exact Or.inr ⟨a, by simp, hu⟩
        · simp only [List.mem_singleton] at hu
          exact Or.inl hu
      · exact Or.inr ⟨g, by simp [hg], hu⟩
    · simp only [addToGroups] at hg
      rw [if_neg hk] at hg
      rcases List.mem_cons.mp hg with hg | hg
      · subst hg
        exact Or.inr ⟨g, by simp, hu⟩
      · rcases ih g u hg hu with h | ⟨g0, hg0, hu0⟩
        · exact Or.inl h
        · exact Or.inr ⟨g0, by simp [hg0], hu0⟩

/-- Members of the script partition come from the input list. -/
theorem groupByScript_members (l : List WeightedUtxo) :
    ∀ g ∈ groupByScript l, ∀ u ∈ g, u ∈ l := by
  suffices haux : ∀ (l2 : List WeightedUtxo) (acc : List (List WeightedUtxo))
      (g : List WeightedUtxo) (u : WeightedUtxo),
      g ∈ l2.foldl (fun a w => addToGroups w a) acc → u ∈ g →
      (∃ g0 ∈ acc, u ∈ g0) ∨ u ∈ l2 by
    intro g hg u hu
    rcases haux l [] g u hg hu with ⟨g0, hg0, _⟩ | h
    · simp at hg0
    · exact h
  intro l2
  induction l2 with
  | nil =>
    intro acc g u hg hu
    simp only [List.foldl_nil] at hg
    exact Or.inl ⟨g, hg, hu⟩
  | cons w ws ih =>
    intro acc g u hg hu
    simp only [List.foldl_cons] at hg
    rcases ih (addToGroups w acc) g u hg hu with ⟨g0, hg0, hu0⟩ | h
    · rcases addToGroups_members w acc g0 u hg0 hu0 with h | ⟨g1, hg1, hu1⟩
      · exact Or.inr (by simp [h])
      · exact Or.inl ⟨g1, hg1, hu1⟩
    · exact Or.inr (by simp [h])

/-- Members of the produced groups come from the input UTXO list. -/
theorem group_utxos_mem (utxos : List WeightedUtxo) (avoid : Bool) :
    ∀ g ∈ group_utxos_if_applies utxos avoid, ∀ u ∈ g, u ∈ utxos := by
  intro g hg u hu
  cases avoid with
  | false =>
    simp only [group_utxos_if_applies, Bool.not_false, if_pos] at hg
    rcases List.mem_map.mp hg with ⟨u0, hu0, hgu⟩
    subst hgu
    simp only [List.mem_singleton] at hu
    subst hu
    exact hu0
  | true =>
    simp only [group_utxos_if_applies, Bool.not_true, Bool.false_eq_true, if_neg,
      not_false_iff] at hg
    rcases List.mem_flatten.mp hg with ⟨chunkList, hchunks, hgmem⟩
    rcases List.mem_map.mp hchunks with ⟨g0, hg0, hexp⟩
    subst hexp
    by_cases hbig : g0.length > OUTPUT_GROUP_MAX_ENTRIES
    · rw [if_pos hbig] at hgmem
      obtain ⟨_, _, hsub⟩ := chunksOf_mem OUTPUT_GROUP_MAX_ENTRIES (by decide) g0 g hgmem
      exact groupByScript_members utxos g0 hg0 u (hsub u hu)
    · rw [if_neg hbig] at hgmem
      simp only [List.mem_singleton] at hgmem
      subst hgmem
      exact groupByScript_members utxos g hg0 u hu

/-- The per-group cap expansion of `group_utxos_if_applies` leaves the per-key
contents unchanged. -/
theorem expand_filter (k : List Nat) :
    ∀ gs : List (List WeightedUtxo),
      (∀ g ∈ gs, g ≠ [] ∧ ∀ u ∈ g, groupKey g = some (spkBytes u)) →
      (((gs.map (fun g =>
            if g.length > OUTPUT_GROUP_MAX_ENTRIES then chunksOf OUTPUT_GROUP_MAX_ENTRIES g
            else [g])).flatten.filter (fun g => decide (groupKey g = some k))).flatten) =
        ((gs.filter (fun g => decide (groupKey g = some k))).flatten) := by
  intro gs
  induction gs with
  | nil => intro _; rfl
  | cons g gs ih =>
    intro hgs
    obtain ⟨hgne, hgkey⟩ := hgs g (by simp)
    have htail := ih (fun g2 hg2 => hgs g2 (by simp [hg2]))
    simp only [List.map_cons, List.flatten_cons, List.filter_append,
      List.flatten_append, List.filter_cons]
    have hchunkkeys : ∀ c ∈ (if g.length > OUTPUT_GROUP_MAX_ENTRIES then
        chunksOf OUTPUT_GROUP_MAX_ENTRIES g else [g]), groupKey c = groupKey g ∧ c ≠ [] := by
      intro c hc
      by_cases hbig : g.length > OUTPUT_GROUP_MAX_ENTRIES
      · rw [if_pos hbig] at hc
        obtain ⟨hcne, _, hsub⟩ := chunksOf_mem OUTPUT_GROUP_MAX_ENTRIES (by decide) g c hc
        refine ⟨?_, hcne⟩
        cases c with
        | nil => exact absurd rfl hcne
        | cons u us =>
          have hu : u ∈ g := hsub u (by simp)
          exact (hgkey u hu).symm
      · rw [if_neg hbig] at hc
        simp only [List.mem_singleton] at hc
        subst hc
        exact ⟨rfl, hgne⟩
    have hflat : (if g.length > OUTPUT_GROUP_MAX_ENTRIES then
        chunksOf OUTPUT_GROUP_MAX_ENTRIES g else [g]).flatten = g := by
      by_cases hbig : g.length > OUTPUT_GROUP_MAX_ENTRIES
      · rw [if_pos hbig]
        exact chunksOf_flatten OUTPUT_GROUP_MAX_ENTRIES (by decide) g
      · rw [if_neg hbig]
        simp
    simp only [decide_eq_true_eq]
    by_cases hgk : groupKey g = some k
    · have hall : ((if g.length > OUTPUT_GROUP_MAX_ENTRIES then
          chunksOf OUTPUT_GROUP_MAX_ENTRIES g else [g]).filter
            (fun c => decide (groupKey c = some k))) =
          (if g.length > OUTPUT_GROUP_MAX_ENTRIES then
            chunksOf OUTPUT_GROUP_MAX_ENTRIES g else [g]) := by
        apply List.filter_eq_self.mpr
        intro c hc
        simp only [decide_eq_true_eq]
        rw [(hchunkkeys c hc).1]
        exact hgk
      rw [hall, hflat, if_pos hgk]
      simp only [List.flatten_cons]
      rw [htail]
    · have hnone : ((if g.length > OUTPUT_GROUP_MAX_ENTRIES then
          chunksOf OUTPUT_GROUP_MAX_ENTRIES g else [g]).filter
            (fun c => decide (groupKey c = some k))) = [] := by
        apply List.filter_eq_nil_iff.mpr
        intro c hc
        simp only [decide_eq_true_eq]
        rw [(hchunkkeys c hc).1]
        exact hgk
      rw [hnone, if_neg hgk]
      simp only [List.flatten_nil, List.nil_append]
      rw [htail]

/-- C7: with `avoid_partial_spends = false` every UTXO becomes its own
singleton group in input order; with `true` the UTXOs are partitioned by exact
script-byte equality into non-empty groups of at most `OUTPUT_GROUP_MAX_ENTRIES
= 100` members each, where the groups carrying script `k`, flattened in order,
are exactly the input UTXOs with script `k` in input order (consecutive chunks
preserving internal order); 101 same-script UTXOs yield groups of sizes 100 and
1. -/
theorem group_utxos_characterization :
    (∀ utxos : List WeightedUtxo,
      group_utxos_if_applies utxos false = utxos.map (fun u => [u])) ∧
    (∀ (utxos : List WeightedUtxo) (g : List WeightedUtxo),
      g ∈ group_utxos_if_applies utxos true →
      g ≠ [] ∧ g.length ≤ OUTPUT_GROUP_MAX_ENTRIES ∧
        ∀ u ∈ g, ∀ v ∈ g, spkBytes u = spkBytes v) ∧
    (∀ (utxos : List WeightedUtxo) (k : List Nat),
      (((group_utxos_if_applies utxos true).filter
          (fun g => decide (groupKey g = some k))).flatten) =
        utxos.filter (fun u => decide (spkBytes u = k))) ∧
    ((group_utxos_if_applies ((List.range 101).map (fun i => sampleUtxo 1000 i))
        true).map List.length) = [100, 1] := by
  refine ⟨fun utxos => rfl, ?_, ?_, ?_⟩
  · intro utxos g hg
    obtain ⟨hne, hkey, _⟩ := groupByScript_inv utxos
    simp only [group_utxos_if_applies, Bool.not_true, Bool.false_eq_true, if_neg,
      not_false_iff] at hg
    rcases List.mem_flatten.mp hg with ⟨chunkList, hchunks, hgmem⟩
    rcases List.mem_map.mp hchunks with ⟨g0, hg0, hexp⟩
    subst hexp
    by_cases hbig : g0.length > OUTPUT_GROUP_MAX_ENTRIES
    · rw [if_pos hbig] at hgmem
      obtain ⟨h1, h2, h3⟩ := chunksOf_mem OUTPUT_GROUP_MAX_ENTRIES (by decide) g0 g hgmem
      refine ⟨h1, h2, ?_⟩
      intro u hu v hv
      have hu0 := hkey g0 hg0 u (h3 u hu)
      have hv0 := hkey g0 hg0 v (h3 v hv)
      rw [hu0] at hv0
      exact Option.some.inj hv0
    · rw [if_neg hbig] at hgmem
      simp only [List.mem_singleton] at hgmem
      subst hgmem
      refine ⟨hne g hg0, by omega, ?_⟩
      intro u hu v hv
      have hu0 := hkey g hg0 u hu
      have hv0 := hkey g hg0 v hv
      rw [hu0] at hv0
      exact Option.some.inj hv0
  · intro utxos k
    obtain ⟨hne, hkey, _⟩ := groupByScript_inv utxos
    show ((((groupByScript utxos).map (fun g =>
        if g.length > OUTPUT_GROUP_MAX_ENTRIES then chunksOf OUTPUT_GROUP_MAX_ENTRIES g
        else [g])).flatten.filter (fun g => decide (groupKey g = some k))).flatten) = _
    rw [expand_filter k (groupByScript utxos)
      (fun g hg => ⟨hne g hg, hkey g hg⟩)]
    exact groupByScript_filter utxos k
  · rfl

/-- Witness for C7 at a concrete input: a single UTXO grouped with
`avoid_partial_spends = true` forms one non-empty, script-homogeneous group of
size at most 100. -/
theorem group_utxos_characterization_witness :
    [sampleUtxo 5 0] ≠ [] ∧ [sampleUtxo 5 0].length ≤ OUTPUT_GROUP_MAX_ENTRIES ∧
      ∀ u ∈ [sampleUtxo 5 0], ∀ v ∈ [sampleUtxo 5 0], spkBytes u = spkBytes v :=
  group_utxos_characterization.2.1 [sampleUtxo 5 0] [sampleUtxo 5 0] (by decide)

/-! ## C8: duplicate filtering -/

theorem filterDupPass_fst : ∀ (l : List WeightedUtxo) (visited : List OutPoint),
    (filterDupPass visited l).1 = keepFirstFrom visited l := by
  intro l
  induction l with
  | nil => intro visited; rfl
  | cons u us ih =>
    intro visited
    by_cases hmem : u.utxo.outpoint ∈ visited
    · simp only [filterDupPass, keepFirstFrom, if_pos hmem]
      exact ih visited
    · rcases hr : filterDupPass (u.utxo.outpoint :: visited) us with ⟨kept, v2⟩
      have hk := ih (u.utxo.outpoint :: visited)
      rw [hr] at hk
      simp only [filterDupPass, keepFirstFrom, if_neg hmem, hr]
      rw [← hk]

/-- The visited set after a pass contains exactly the initial outpoints and
those of the traversed list. -/
theorem filterDupPass_snd_mem :
    ∀ (l : List WeightedUtxo) (visited : List OutPoint) (op : OutPoint),
      op ∈ (filterDupPass visited l).2 ↔
        op ∈ visited ∨ op ∈ l.map (fun w => w.utxo.outpoint) := by
  intro l
  induction l with
  | nil =>
    intro visited op
    simp [filterDupPass]
  | cons u us ih =>
    intro visited op
    by_cases hmem : u.utxo.outpoint ∈ visited
    · simp only [filterDupPass, if_pos hmem]
      rw [ih visited op]
      simp only [List.map_cons, List.mem_cons]
      constructor
      · intro h
        tauto
      · intro h
        rcases h with h | h | h
        · tauto
        · exact Or.inl (h ▸ hmem)
        · tauto
    · rcases hr : filterDupPass (u.utxo.outpoint :: visited) us with ⟨kept, v2⟩
      have hk := ih (u.utxo.outpoint :: visited) op
      rw [hr] at hk
      simp only [filterDupPass, if_neg hmem, hr]
      simp only at hk
      rw [hk]
      simp only [List.mem_cons, List.map_cons]
      tauto

/-- `keepFirstFrom` only depends on the seen set up to membership. -/
theorem keepFirstFrom_congr :
    ∀ (l : List WeightedUtxo) (s1 s2 : List OutPoint),
      (∀ op, op ∈ s1 ↔ op ∈ s2) → keepFirstFrom s1 l = keepFirstFrom s2 l := by
  intro l
  induction l with
  | nil => intro s1 s2 _; rfl
  | cons u us ih =>
    intro s1 s2 hs
    by_cases hmem : u.utxo.outpoint ∈ s1
    · rw [keepFirstFrom, keepFirstFrom, if_pos hmem, if_pos ((hs _).mp hmem)]
      exact ih s1 s2 hs
    · rw [keepFirstFrom, keepFirstFrom, if_neg hmem,
        if_neg (fun hc => hmem ((hs _).mpr hc))]
      rw [ih (u.utxo.outpoint :: s1) (u.utxo.outpoint :: s2)
        (fun op => by simp [List.mem_cons, hs op])]

/-- Walking a concatenation equals walking the first part and then the second
with the first part's visited set. -/
theorem keepFirstFrom_append :
    ∀ (a b : List WeightedUtxo) (visited : List OutPoint),
      keepFirstFrom visited (a ++ b) =
        keepFirstFrom visited a ++ keepFirstFrom (filterDupPass visited a).2 b := by
  intro a
  induction a with
  | nil => intro b visited; rfl
  | cons u us ih =>
    intro b visited
    by_cases hmem : u.utxo.outpoint ∈ visited
    · simp only [List.cons_append, keepFirstFrom, filterDupPass, if_pos hmem]
      exact ih b visited
    · rcases hr : filterDupPass (u.utxo.outpoint :: visited) us with ⟨kept, v2⟩
      have hk := ih b (u.utxo.outpoint :: visited)
      rw [hr] at hk
      simp only [List.cons_append, keepFirstFrom, filterDupPass, if_neg hmem, hr]
      simp only [List.append_eq] at hk ⊢
      rw [hk]

/-- C8: `filter_duplicates` keeps, in order, the first occurrence by outpoint
of each UTXO walking `required` first and then `optional`: the returned
required list is `required` deduplicated keeping first occurrences, the
returned optional list is `optional` stripped of every outpoint present in
`required` and of its own later duplicates, and the two lists concatenated are
exactly the deduplicated walk of `required ++ optional`. -/
theorem filter_duplicates_characterization (required optional : List WeightedUtxo) :
    (filter_duplicates required optional).1 = keepFirstFrom [] required ∧
    (filter_duplicates required optional).2 =
      keepFirstFrom (required.map (fun w => w.utxo.outpoint)) optional ∧
    keepFirstFrom [] (required ++ optional) =
      (filter_duplicates required optional).1 ++ (filter_duplicates required optional).2 := by
  rcases hr : filterDupPass [] required with ⟨required1, visited1⟩
  rcases ho : filterDupPass visited1 optional with ⟨optional1, visited2⟩
  have hfd : filter_duplicates required optional = (required1, optional1) := by
    simp only [filter_duplicates, hr, ho]
  rw [hfd]
  have h1 : required1 = keepFirstFrom [] required := by
    have := filterDupPass_fst required []
    rw [hr] at this
    exact this
  have h2 : optional1 = keepFirstFrom visited1 optional := by
    have := filterDupPass_fst optional visited1
    rw [ho] at this
    exact this
  have hv1 : ∀ op, op ∈ visited1 ↔ op ∈ required.map (fun w => w.utxo.outpoint) := by
    intro op
    have := filterDupPass_snd_mem required [] op
    rw [hr] at this
    simpa using this
  refine ⟨h1, ?_, ?_⟩
  · rw [h2]
    exact keepFirstFrom_congr optional visited1
      (required.map (fun w => w.utxo.outpoint)) hv1
  · rw [keepFirstFrom_append required optional [], hr]
    simp only
    rw [← h1, ← h2]

/-! ## BnB analysis: basic lemmas -/

theorem ogWF_new (fr : FeeRate) (w : WeightedUtxo) : ogWF fr (OutputGroup.new w fr) :=
  ⟨rfl, rfl⟩

theorem insertLe_mem (le : α → α → Bool) (x y : α) :
    ∀ l : List α, y ∈ insertLe le x l ↔ y = x ∨ y ∈ l := by
  intro l
  induction l with
  | nil => simp [insertLe]
  | cons z zs ih =>
    by_cases h : le x z = true
    · simp [insertLe, h]
    · simp only [insertLe, h, Bool.false_eq_true, if_neg, not_false_iff, List.mem_cons]
      rw [ih]
      tauto

theorem insertionSort_mem (le : α → α → Bool) (y : α) :
    ∀ l : List α, y ∈ insertionSort le l ↔ y ∈ l := by
  intro l
  induction l with
  | nil => simp [insertionSort]
  | cons z zs ih =>
    simp only [insertionSort, List.mem_cons]
    rw [insertLe_mem]
    rw [ih]

theorem bnbSortOptional_mem (g : List OutputGroup) (opt : List (List OutputGroup)) :
    g ∈ bnbSortOptional opt ↔ g ∈ opt := by
  unfold bnbSortOptional
  rw [List.mem_reverse]
  exact insertionSort_mem _ g opt

theorem chosenGroups_subset (opt : List (List OutputGroup)) (sel : List Bool)
    (g : List OutputGroup) (hg : g ∈ chosenGroups opt sel) : g ∈ opt := by
  rcases List.mem_filterMap.mp hg with ⟨⟨g1, b⟩, hmem, heq⟩
  by_cases hb : b = true
  · subst hb
    simp only [if_pos] at heq
    cases heq
    exact (List.of_mem_zip hmem).1
  · simp [hb] at heq

/-- Summed effective value over a flattened group list equals the sum of group
effective values. -/
theorem flatten_eff_sum : ∀ gs : List (List OutputGroup),
    (gs.flatten.map (fun og => og.effectiveValue)).sum = (gs.map groupEff).sum := by
  intro gs
  induction gs with
  | nil => rfl
  | cons g tl ih =>
    simp only [List.flatten_cons, List.map_append, List.sum_append, List.map_cons,
      List.sum_cons, ih, groupEff]

/-- `selSum` equals the summed effective values of the chosen groups. -/
theorem selSum_eq_chosen : ∀ (opt : List (List OutputGroup)) (sel : List Bool),
    selSum opt sel = ((chosenGroups opt sel).map groupEff).sum := by
  intro opt
  induction opt with
  | nil =>
    intro sel
    cases sel <;> simp [selSum, chosenGroups]
  | cons g gs ih =>
    intro sel
    cases sel with
    | nil => simp [selSum, chosenGroups]
    | cons b bs =>
      simp only [selSum, chosenGroups, List.zip_cons_cons, List.filterMap_cons]
      by_cases hb : b = true
      · subst hb
        simp only [if_pos, List.map_cons, List.sum_cons]
        rw [ih bs]
        rfl
      · have hb' : b = false := Bool.eq_false_iff.mpr hb
        subst hb'
        simp only [Bool.false_eq_true, if_neg, not_false_iff]
        rw [ih bs]
        simp [chosenGroups]

/-- Appending one flag adds that group's effective value when `true` (out of
range, `getD` returns the empty group whose effective value is zero). -/
theorem selSum_append : ∀ (opt : List (List OutputGroup)) (sel : List Bool) (b : Bool),
    selSum opt (sel ++ [b]) =
      selSum opt sel + (if b then groupEff (opt.getD sel.length []) else 0) := by
  intro opt sel
  induction sel generalizing opt with
  | nil =>
    intro b
    cases opt with
    | nil => cases b <;> simp [selSum, groupEff]
    | cons g gs => cases b <;> simp [selSum]
  | cons x xs ih =>
    intro b
    cases opt with
    | nil => cases b <;> simp [selSum, groupEff]
    | cons g gs =>
      simp only [List.cons_append, selSum, List.length_cons, List.append_eq]
      rw [ih gs b]
      simp only [List.getD_cons_succ]
      omega

/-- The last-flag decomposition of `selSum`. -/
theorem selSum_getLast (opt : List (List OutputGroup)) (sel : List Bool) (b : Bool)
    (h : sel.getLast? = some b) :
    selSum opt sel =
      selSum opt sel.dropLast +
        (if b then groupEff (opt.getD sel.dropLast.length []) else 0) := by
  have hne : sel ≠ [] := by
    intro hc
    subst hc
    simp at h
  have hdecomp : sel.dropLast ++ [b] = sel := by
    have h1 := List.dropLast_append_getLast hne
    have h2 : sel.getLast hne = b := by
      have := List.getLast?_eq_getLast sel hne
      rw [this] at h
      exact Option.some.inj h
    rw [h2] at h1
    exact h1
  conv_lhs => rw [← hdecomp]
  exact selSum_append opt sel.dropLast b

/-! ## BnB loop invariant -/

/-- The pop loop preserves the selected effective value and ends (with enough
fuel) with a selection not ending in `false`. -/
theorem popAux_spec (opt : List (List OutputGroup)) :
    ∀ (fuel : Nat) (sel : List Bool) (avail : Int), sel.length ≤ fuel →
      selSum opt (popTrailingFalsesAux opt fuel sel avail).1 = selSum opt sel ∧
      (popTrailingFalsesAux opt fuel sel avail).1.getLast? ≠ some false := by
  intro fuel
  induction fuel with
  | zero =>
    intro sel avail hlen
    have : sel = [] := List.eq_nil_of_length_eq_zero (Nat.le_zero.mp hlen)
    subst this
    simp [popTrailingFalsesAux]
  | succ m ih =>
    intro sel avail hlen
    cases hlast : sel.getLast? with
    | none =>
      simp [popTrailingFalsesAux, hlast]
    | some b =>
      cases b with
      | false =>
        have hne : sel ≠ [] := by
          intro hc
          subst hc
          simp at hlast
        have hlen2 : sel.dropLast.length ≤ m := by
          have := List.length_pos.mpr hne
          simp only [List.length_dropLast, List.length_cons] at hlen ⊢
          omega
        simp only [popTrailingFalsesAux, hlast]
        obtain ⟨h1, h2⟩ := ih sel.dropLast
          (avail + groupEff (opt.getD sel.dropLast.length [])) hlen2
        refine ⟨?_, h2⟩
        rw [h1, selSum_getLast opt sel false hlast]
        simp
      | true =>
        simp [popTrailingFalsesAux, hlast]

/-- The backtracking arm preserves the loop invariant. -/
theorem bnbBacktrack_inv (opt : List (List OutputGroup)) (target coc cv0 : Int)
    (s : BnbState) (hinv : BnbInv opt target coc cv0 s) (s' : BnbState)
    (h : bnbBacktrack opt s = BnbStepRes.brk s' ∨ bnbBacktrack opt s = BnbStepRes.cont s') :
    BnbInv opt target coc cv0 s' := by
  obtain ⟨h1, h2, h3⟩ := hinv
  have hspec := popAux_spec opt s.currentSelection.length s.currentSelection
    s.currAvailableValue (Nat.le_refl _)
  unfold bnbBacktrack at h
  unfold popTrailingFalses at h
  rcases hp : popTrailingFalsesAux opt s.currentSelection.length s.currentSelection
      s.currAvailableValue with ⟨sel2, avail2⟩
  rw [hp] at h hspec
  simp only at h hspec
  obtain ⟨hsum, hlast⟩ := hspec
  cases hl2 : sel2.getLast? with
  | none =>
    rw [hl2] at h
    simp only at h
    by_cases hbe : s.bestSelection.isEmpty
    · rw [if_pos hbe] at h
      rcases h with h | h <;> exact absurd h (by simp)
    · rw [if_neg hbe] at h
      rcases h with h | h
      · injection h with h
        subst h
        exact ⟨by rw [h1, hsum], h2, h3⟩
      · exact absurd h (by simp)
  | some b =>
    rw [hl2] at h
    cases b with
    | false => exact absurd hl2 hlast
    | true =>
      simp only at h
      rcases h with h | h
      · exact absurd h (by simp)
      · injection h with h
        subst h
        refine ⟨?_, h2, h3⟩
        simp only
        rw [h1, ← hsum]
        rw [selSum_getLast opt sel2 true hl2]
        rw [selSum_append]
        simp only [Bool.false_eq_true, if_neg, not_false_iff, if_pos,
          List.length_append, List.length_cons, List.length_nil]
        have : sel2.dropLast.length + (0 + 1) - 1 = sel2.dropLast.length := by omega
        rw [this]
        omega

/-- `recordBest` keeps the traversal fields unchanged. -/
theorem recordBest_fields (s : BnbState) :
    (recordBest s).currentSelection = s.currentSelection ∧
    (recordBest s).currValue = s.currValue ∧
    (recordBest s).currAvailableValue = s.currAvailableValue := by
  unfold recordBest
  cases s.bestSelectionValue with
  | none => exact ⟨rfl, rfl, rfl⟩
  | some b =>
    dsimp only
    by_cases h : s.currValue < b
    · rw [if_pos h]
      exact ⟨rfl, rfl, rfl⟩
    · rw [if_neg h]
      exact ⟨rfl, rfl, rfl⟩

/-- Recording inside the acceptance window preserves the invariant. -/
theorem recordBest_inv (opt : List (List OutputGroup)) (target coc cv0 : Int)
    (s : BnbState) (hinv : BnbInv opt target coc cv0 s)
    (hlo : target ≤ s.currValue) (hhi : s.currValue ≤ target + coc) :
    BnbInv opt target coc cv0 (recordBest s) := by
  obtain ⟨h1, h2, h3⟩ := hinv
  unfold recordBest
  cases hb : s.bestSelectionValue with
  | none =>
    dsimp only
    refine ⟨h1, ?_, ?_⟩
    · intro v hv
      simp only [Option.some.injEq] at hv
      subst hv
      exact ⟨hlo, hhi, h1⟩
    · intro _
      rfl
  | some bv =>
    dsimp only
    by_cases h : s.currValue < bv
    · rw [if_pos h]
      refine ⟨h1, ?_, ?_⟩
      · intro v hv
        simp only [Option.some.injEq] at hv
        subst hv
        exact ⟨hlo, hhi, h1⟩
      · intro _
        rfl
    · rw [if_neg h]
      exact ⟨h1, h2, h3⟩

/-- One loop iteration preserves the invariant on `break` and `continue`. -/
theorem bnbStep_inv (opt : List (List OutputGroup)) (target coc cv0 : Int)
    (s : BnbState) (hinv : BnbInv opt target coc cv0 s) (s' : BnbState)
    (h : bnbStep opt target coc s = BnbStepRes.brk s' ∨
      bnbStep opt target coc s = BnbStepRes.cont s') :
    BnbInv opt target coc cv0 s' := by
  unfold bnbStep at h
  by_cases hc1 : s.currValue + s.currAvailableValue < target ∨
      s.currValue > target + coc
  · rw [if_pos hc1] at h
    exact bnbBacktrack_inv opt target coc cv0 s hinv s' h
  · rw [if_neg hc1] at h
    by_cases hc2 : s.currValue ≥ target
    · rw [if_pos hc2] at h
      have hhi : s.currValue ≤ target + coc := by
        push_neg at hc1
        exact hc1.2
      have hrec := recordBest_inv opt target coc cv0 s hinv hc2 hhi
      by_cases hc3 : s.currValue = target
      · rw [if_pos hc3] at h
        rcases h with h | h
        · injection h with h
          subst h
          exact hrec
        · exact absurd h (by simp)
      · rw [if_neg hc3] at h
        exact bnbBacktrack_inv opt target coc cv0 (recordBest s) hrec s' h
    · rw [if_neg hc2] at h
      obtain ⟨h1, h2, h3⟩ := hinv
      unfold bnbForward at h
      rcases h with h | h
      · exact absurd h (by simp)
      · injection h with h
        subst h
        refine ⟨?_, h2, h3⟩
        simp only
        rw [h1, selSum_append]
        simp
        omega

/-- The loop preserves the invariant up to a normal exit. -/
theorem bnbLoop_inv (opt : List (List OutputGroup)) (target coc cv0 : Int) :
    ∀ (fuel : Nat) (s s' : BnbState), BnbInv opt target coc cv0 s →
      bnbLoop opt target coc fuel s = Except.ok s' → BnbInv opt target coc cv0 s' := by
  intro fuel
  induction fuel with
  | zero =>
    intro s s' hinv h
    simp only [bnbLoop, Except.ok.injEq] at h
    subst h
    exact hinv
  | succ m ih =>
    intro s s' hinv h
    simp only [bnbLoop] at h
    cases hstep : bnbStep opt target coc s with
    | brk s2 =>
      rw [hstep] at h
      simp only [Except.ok.injEq] at h
      subst h
      exact bnbStep_inv opt target coc cv0 s hinv _ (Or.inl hstep)
    | fail e =>
      rw [hstep] at h
      simp at h
    | cont s2 =>
      rw [hstep] at h
      exact ih s2 s' (bnbStep_inv opt target coc cv0 s hinv s2 (Or.inr hstep)) h

/-- Elimination of a successful `bnb` call: the loop exits normally with a
non-empty best selection whose recorded value lies in the acceptance window,
and the result is assembled from it. -/
theorem bnb_ok_elim (required optional : List (List OutputGroup))
    (cv cav target coc : Int) (ds : Script) (fr : FeeRate) (r : CoinSelectionResult)
    (h : bnb required optional cv cav target coc ds fr = Except.ok r) :
    ∃ s' v, bnbLoop (bnbSortOptional optional) target coc BNB_TOTAL_TRIES
        ⟨[], cv, cav, [], none⟩ = Except.ok s' ∧
      s'.bestSelection ≠ [] ∧ s'.bestSelectionValue = some v ∧
      target ≤ v ∧ v ≤ target + coc ∧
      v = cv + selSum (bnbSortOptional optional) s'.bestSelection ∧
      r = calculate_cs_result (chosenGroups (bnbSortOptional optional) s'.bestSelection)
          required (decide_change (v - target).toNat fr ds) := by
  simp only [bnb] at h
  cases hloop : bnbLoop (bnbSortOptional optional) target coc BNB_TOTAL_TRIES
      ⟨[], cv, cav, [], none⟩ with
  | error e =>
    rw [hloop] at h
    simp at h
  | ok s' =>
    rw [hloop] at h
    dsimp only at h
    by_cases hempty : s'.bestSelection.isEmpty
    · rw [if_pos hempty] at h
      simp at h
    · rw [if_neg hempty] at h
      simp only [Except.ok.injEq] at h
      have hne : s'.bestSelection ≠ [] := by
        intro hc
        simp [hc] at hempty
      have hinv0 : BnbInv (bnbSortOptional optional) target coc cv
          ⟨[], cv, cav, [], none⟩ := by
        refine ⟨?_, ?_, ?_⟩
        · simp [selSum]
        · intro v hv
          simp at hv
        · intro hc
          simp at hc
      have hinv := bnbLoop_inv (bnbSortOptional optional) target coc cv
        BNB_TOTAL_TRIES _ s' hinv0 hloop
      obtain ⟨h1, h2, h3⟩ := hinv
      rcases Option.isSome_iff_exists.mp (h3 hne) with ⟨v, hv⟩
      obtain ⟨hlo, hhi, hval⟩ := h2 v hv
      refine ⟨s', v, rfl, hne, hv, hlo, hhi, hval, ?_⟩
      rw [← h]
      rw [hv]
      rfl

/-! ## BnB recorded values and minimality -/

theorem minFold_append (b : Option Int) (l1 l2 : List Int) :
    minFold (minFold b l1) l2 = minFold b (l1 ++ l2) := by
  simp [minFold, List.foldl_append]

theorem minFold_some_min : ∀ (l : List Int) (a v : Int),
    minFold (some a) l = some v → (v = a ∨ v ∈ l) ∧ v ≤ a ∧ ∀ x ∈ l, v ≤ x := by
  intro l
  induction l with
  | nil =>
    intro a v h
    simp only [minFold, List.foldl_nil, Option.some.injEq] at h
    subst h
    exact ⟨Or.inl rfl, le_refl _, by simp⟩
  | cons x xs ih =>
    intro a v h
    have hstep : minFold (some a) (x :: xs) = minFold (some (min a x)) xs := rfl
    rw [hstep] at h
    obtain ⟨hm, hle, hall⟩ := ih (min a x) v h
    refine ⟨?_, le_trans hle (min_le_left a x), ?_⟩
    · rcases hm with hm | hm
      · rcases le_total a x with hax | hax
        · rw [min_eq_left hax] at hm
          exact Or.inl hm
        · rw [min_eq_right hax] at hm
          exact Or.inr (by simp [hm])
      · exact Or.inr (by simp [hm])
    · intro y hy
      rcases List.mem_cons.mp hy with hy | hy
      · subst hy
        exact le_trans hle (min_le_right a y)
      · exact hall y hy

theorem minFold_none_min (l : List Int) (v : Int) (h : minFold none l = some v) :
    v ∈ l ∧ ∀ x ∈ l, v ≤ x := by
  cases l with
  | nil => simp [minFold] at h
  | cons x xs =>
    have hstep : minFold none (x :: xs) = minFold (some x) xs := rfl
    rw [hstep] at h
    obtain ⟨hm, hle, hall⟩ := minFold_some_min xs x v h
    refine ⟨?_, ?_⟩
    · rcases hm with hm | hm
      · simp [hm]
      · simp [hm]
    · intro y hy
      rcases List.mem_cons.mp hy with hy | hy
      · subst hy
        exact hle
      · exact hall y hy

/-- The backtracking arm never touches the best-solution fields. -/
theorem bnbBacktrack_best (opt : List (List OutputGroup)) (s s' : BnbState)
    (h : bnbBacktrack opt s = BnbStepRes.brk s' ∨ bnbBacktrack opt s = BnbStepRes.cont s') :
    s'.bestSelectionValue = s.bestSelectionValue ∧ s'.bestSelection = s.bestSelection := by
  unfold bnbBacktrack at h
  unfold popTrailingFalses at h
  rcases hp : popTrailingFalsesAux opt s.currentSelection.length s.currentSelection
      s.currAvailableValue with ⟨sel2, avail2⟩
  rw [hp] at h
  simp only at h
  cases hl2 : sel2.getLast? with
  | none =>
    rw [hl2] at h
    simp only at h
    by_cases hbe : s.bestSelection.isEmpty
    · rw [if_pos hbe] at h
      rcases h with h | h <;> exact absurd h (by simp)
    · rw [if_neg hbe] at h
      rcases h with h | h
      · injection h with h
        subst h
        exact ⟨rfl, rfl⟩
      · exact absurd h (by simp)
  | some b =>
    rw [hl2] at h
    rcases h with h | h
    · exact absurd h (by simp)
    · injection h with h
      subst h
      exact ⟨rfl, rfl⟩

/-- Recording folds the current value into the best by `min`. -/
theorem recordBest_best (s : BnbState) :
    (recordBest s).bestSelectionValue = minFold s.bestSelectionValue [s.currValue] := by
  unfold recordBest minFold
  cases hb : s.bestSelectionValue with
  | none => rfl
  | some b =>
    dsimp only [List.foldl]
    by_cases h : s.currValue < b
    · rw [if_pos h]
      rw [min_eq_right (le_of_lt h)]
    · rw [if_neg h]
      rw [min_eq_left (le_of_not_lt h)]
      exact hb

/-- One iteration updates the best value by folding in the recorded value. -/
theorem bnbStep_minFold (opt : List (List OutputGroup)) (target coc : Int)
    (s s' : BnbState)
    (h : bnbStep opt target coc s = BnbStepRes.brk s' ∨
      bnbStep opt target coc s = BnbStepRes.cont s') :
    s'.bestSelectionValue =
      minFold s.bestSelectionValue (stepRecorded target coc s).toList := by
  unfold bnbStep at h
  unfold stepRecorded
  by_cases hc1 : s.currValue + s.currAvailableValue < target ∨
      s.currValue > target + coc
  · rw [if_pos hc1] at h
    rw [if_pos hc1]
    simp only [Option.toList]
    exact (bnbBacktrack_best opt s s' h).1
  · rw [if_neg hc1] at h
    rw [if_neg hc1]
    by_cases hc2 : s.currValue ≥ target
    · rw [if_pos hc2] at h
      rw [if_pos hc2]
      by_cases hc3 : s.currValue = target
      · rw [if_pos hc3] at h
        rcases h with h | h
        · injection h with h
          subst h
          exact recordBest_best s
        · exact absurd h (by simp)
      · rw [if_neg hc3] at h
        have hb := bnbBacktrack_best opt (recordBest s) s' h
        rw [hb.1]
        exact recordBest_best s
    · rw [if_neg hc2] at h
      rw [if_neg hc2]
      simp only [Option.toList]
      unfold bnbForward at h
      rcases h with h | h
      · exact absurd h (by simp)
      · injection h with h
        subst h
        rfl

/-- A normally-exiting loop returns the min-fold of the recorded values. -/
theorem bnbLoop_minFold (opt : List (List OutputGroup)) (target coc : Int) :
    ∀ (fuel : Nat) (s s' : BnbState), bnbLoop opt target coc fuel s = Except.ok s' →
      s'.bestSelectionValue =
        minFold s.bestSelectionValue (bnbRecorded opt target coc fuel s) := by
  intro fuel
  induction fuel with
  | zero =>
    intro s s' h
    simp only [bnbLoop, Except.ok.injEq] at h
    subst h
    rfl
  | succ m ih =>
    intro s s' h
    simp only [bnbLoop] at h
    simp only [bnbRecorded]
    cases hstep : bnbStep opt target coc s with
    | brk s2 =>
      rw [hstep] at h
      simp only [Except.ok.injEq] at h
      subst h
      dsimp only
      rw [List.append_nil]
      exact bnbStep_minFold opt target coc s _ (Or.inl hstep)
    | fail e =>
      rw [hstep] at h
      simp at h
    | cont s2 =>
      rw [hstep] at h
      dsimp only
      rw [ih s2 s' h, bnbStep_minFold opt target coc s s2 (Or.inr hstep),
        minFold_append]

/-- Every recorded value lies in the acceptance window. -/
theorem bnbRecorded_range (opt : List (List OutputGroup)) (target coc : Int) :
    ∀ (fuel : Nat) (s : BnbState) (x : Int), x ∈ bnbRecorded opt target coc fuel s →
      target ≤ x ∧ x ≤ target + coc := by
  intro fuel
  induction fuel with
  | zero =>
    intro s x hx
    simp [bnbRecorded] at hx
  | succ m ih =>
    intro s x hx
    simp only [bnbRecorded, List.mem_append] at hx
    rcases hx with hx | hx
    · unfold stepRecorded at hx
      by_cases hc1 : s.currValue + s.currAvailableValue < target ∨
          s.currValue > target + coc
      · rw [if_pos hc1] at hx
        simp at hx
      · rw [if_neg hc1] at hx
        by_cases hc2 : s.currValue ≥ target
        · rw [if_pos hc2] at hx
          simp only [Option.toList, List.mem_singleton] at hx
          subst hx
          push_neg at hc1
          exact ⟨hc2, hc1.2⟩
        · rw [if_neg hc2] at hx
          simp at hx
    · cases hstep : bnbStep opt target coc s with
      | brk s2 =>
        rw [hstep] at hx
        simp at hx
      | fail e =>
        rw [hstep] at hx
        simp at hx
      | cont s2 =>
        rw [hstep] at hx
        exact ih s2 x hx

/-! ## Well-formed output groups and the result invariant -/

theorem sumFee_eq (fr : FeeRate) : ∀ L : List OutputGroup, (∀ og ∈ L, ogWF fr og) →
    (L.map (fun og => og.fee)).sum =
      groupFees fr (L.map (fun og => og.weightedUtxo)) := by
  intro L
  induction L with
  | nil => intro _; rfl
  | cons og tl ih =>
    intro hwf
    have h1 := (hwf og (by simp)).1
    simp only [List.map_cons, List.sum_cons, groupFees] at ih ⊢
    rw [ih (fun og2 hog2 => hwf og2 (by simp [hog2])), h1]

theorem sumEff_eq (fr : FeeRate) : ∀ L : List OutputGroup, (∀ og ∈ L, ogWF fr og) →
    (L.map (fun og => og.effectiveValue)).sum =
      ((groupValue (L.map (fun og => og.weightedUtxo)) : Int) -
        (groupFees fr (L.map (fun og => og.weightedUtxo)) : Int)) := by
  intro L
  induction L with
  | nil => intro _; simp [groupValue, groupFees]
  | cons og tl ih =>
    intro hwf
    obtain ⟨hfee, heff⟩ := hwf og (by simp)
    simp only [List.map_cons, List.sum_cons, groupValue, groupFees] at ih ⊢
    rw [ih (fun og2 hog2 => hwf og2 (by simp [hog2])), heff, hfee]
    push_cast
    ring

/-- The assembled result of well-formed groups whose total effective value
covers the target satisfies the universal selection invariant. -/
theorem calculate_cs_result_invariant (fr : FeeRate) (target : Nat)
    (inputUtxos : List WeightedUtxo)
    (sel req : List (List OutputGroup)) (excess : Excess)
    (hwf : ∀ og ∈ (sel ++ req).flatten, ogWF fr og)
    (hsrc : ∀ og ∈ (sel ++ req).flatten, og.weightedUtxo ∈ inputUtxos)
    (hv : (target : Int) ≤ ((sel ++ req).flatten.map (fun og => og.effectiveValue)).sum) :
    resultInvariant fr target inputUtxos (calculate_cs_result sel req excess) := by
  have hfee := sumFee_eq fr ((sel ++ req).flatten) hwf
  have heff := sumEff_eq fr ((sel ++ req).flatten) hwf
  rw [heff] at hv
  refine ⟨?_, ((sel ++ req).flatten.map (fun og => og.weightedUtxo)), ?_, ?_, ?_⟩
  · show target + ((sel ++ req).flatten.map (fun og => og.fee)).sum ≤ _
    rw [hfee]
    have hsel : ((sel ++ req).flatten.map (fun og => og.weightedUtxo.utxo)) =
        (((sel ++ req).flatten.map (fun og => og.weightedUtxo)).map (fun w => w.utxo)) := by
      rw [List.map_map]
      rfl
    show target + _ ≤ (((sel ++ req).flatten.map (fun og => og.weightedUtxo.utxo)).map
      (fun u => u.txout.value)).sum
    rw [hsel, value_sum_map_utxo]
    omega
  · intro w hw
    rcases List.mem_map.mp hw with ⟨og, hog, hweq⟩
    subst hweq
    exact hsrc og hog
  · show ((sel ++ req).flatten.map (fun og => og.weightedUtxo.utxo)) = _
    rw [List.map_map]
    rfl
  · show ((sel ++ req).flatten.map (fun og => og.fee)).sum = _
    rw [hfee]
    rfl

theorem mapped_ogs_wf (fr : FeeRate) (gs : List (List WeightedUtxo)) :
    ∀ og ∈ (gs.map (fun g => g.map (fun w => OutputGroup.new w fr))).flatten,
      ogWF fr og := by
  intro og hog
  rcases List.mem_flatten.mp hog with ⟨g1, hg1, hog1⟩
  rcases List.mem_map.mp hg1 with ⟨g0, _, hmap⟩
  subst hmap
  rcases List.mem_map.mp hog1 with ⟨w, _, hw⟩
  subst hw
  exact ogWF_new fr w

theorem filtered_ogs_wf (fr : FeeRate) (gs : List (List WeightedUtxo)) :
    ∀ og ∈ (gs.map (fun g => (g.map (fun w => OutputGroup.new w fr)).filter
        (fun og => 0 < og.effectiveValue))).flatten, ogWF fr og := by
  intro og hog
  rcases List.mem_flatten.mp hog with ⟨g1, hg1, hog1⟩
  rcases List.mem_map.mp hg1 with ⟨g0, _, hmap⟩
  subst hmap
  have hog2 := (List.mem_filter.mp hog1).1
  rcases List.mem_map.mp hog2 with ⟨w, _, hw⟩
  subst hw
  exact ogWF_new fr w

/-- Optional output groups only carry positive effective values. -/
theorem filtered_ogs_pos (fr : FeeRate) (gs : List (List WeightedUtxo)) :
    ∀ og ∈ (gs.map (fun g => (g.map (fun w => OutputGroup.new w fr)).filter
        (fun og => 0 < og.effectiveValue))).flatten, 0 < og.effectiveValue := by
  intro og hog
  rcases List.mem_flatten.mp hog with ⟨g1, hg1, hog1⟩
  rcases List.mem_map.mp hg1 with ⟨g0, _, hmap⟩
  subst hmap
  have := (List.mem_filter.mp hog1).2
  simpa using this

/-! ## Exact-match short-circuit -/

/-- A loop state sitting exactly on the target (and able to reach it) records
the current selection and breaks immediately. -/
theorem bnbLoop_exact_match (opt : List (List OutputGroup)) (target coc : Int)
    (fuel : Nat) (s : BnbState)
    (h1 : s.currValue = target)
    (h2 : target ≤ s.currValue + s.currAvailableValue)
    (h3 : s.currValue ≤ target + coc) :
    bnbLoop opt target coc (fuel + 1) s = Except.ok (recordBest s) := by
  have hstep : bnbStep opt target coc s = BnbStepRes.brk (recordBest s) := by
    unfold bnbStep
    rw [if_neg (by push_neg; omega)]
    rw [if_pos (by omega)]
    rw [if_pos h1]
  simp only [bnbLoop, hstep]

/-- Swapping two positions preserves membership. -/
theorem listSwap_mem (l : List α) (i j : Nat) (u : α) (hu : u ∈ listSwap l i j) :
    u ∈ l := by
  unfold listSwap at hu
  cases hi : l.get? i with
  | none =>
    rw [hi] at hu
    exact hu
  | some a =>
    cases hj : l.get? j with
    | none =>
      rw [hi, hj] at hu
      exact hu
    | some b =>
      rw [hi, hj] at hu
      rcases List.mem_or_eq_of_mem_set hu with hu | hu
      · rcases List.mem_or_eq_of_mem_set hu with hu | hu
        · exact hu
        · subst hu
          exact List.get?_mem hj
      · subst hu
        exact List.get?_mem hi

/-- The Fisher–Yates shuffle preserves membership. -/
theorem shuffleSlice_mem (l : List α) (rand : List Nat) (u : α)
    (hu : u ∈ shuffleSlice l rand) : u ∈ l := by
  unfold shuffleSlice at hu
  suffices haux : ∀ (ks : List Nat) (acc : List α),
      u ∈ ks.foldl (fun acc k =>
        let i := l.length - 1 - k
        listSwap acc i (rand.getD k 0 % (i + 1))) acc → u ∈ acc by
    exact haux (List.range (l.length - 1)) l hu
  intro ks
  induction ks with
  | nil =>
    intro acc h
    exact h
  | cons k ks ih =>
    intro acc h
    simp only [List.foldl_cons] at h
    exact listSwap_mem acc _ _ u (ih _ h)

/-- The required output groups carry the caller's required weighted UTXOs. -/
theorem requiredOgsOf_src (params : CoinSelectionParams) :
    ∀ og ∈ (requiredOgsOf params).flatten, og.weightedUtxo ∈ params.requiredUtxos := by
  intro og hog
  rcases List.mem_flatten.mp hog with ⟨g1, hg1, hog1⟩
  rcases List.mem_map.mp hg1 with ⟨g0, hg0, hmap⟩
  subst hmap
  rcases List.mem_map.mp hog1 with ⟨w, hw, hweq⟩
  subst hweq
  exact group_utxos_mem params.requiredUtxos params.avoidPartialSpends g0 hg0 w hw

/-- The optional output groups carry the caller's optional weighted UTXOs. -/
theorem optionalOgsOf_src (params : CoinSelectionParams) :
    ∀ og ∈ (optionalOgsOf params).flatten, og.weightedUtxo ∈ params.optionalUtxos := by
  intro og hog
  rcases List.mem_flatten.mp hog with ⟨g1, hg1, hog1⟩
  rcases List.mem_map.mp hg1 with ⟨g0, hg0, hmap⟩
  subst hmap
  have hog2 := (List.mem_filter.mp hog1).1
  rcases List.mem_map.mp hog2 with ⟨w, hw, hweq⟩
  subst hweq
  exact group_utxos_mem params.optionalUtxos params.avoidPartialSpends g0 hg0 w hw

/-! ## Policy success lemmas -/

theorem largestFirst_ok_inv (params : CoinSelectionParams) (res : CoinSelectionResult)
    (h : largestFirstCoinSelect params = Except.ok res) :
    resultInvariant params.feeRate params.targetAmount
      (params.requiredUtxos ++ params.optionalUtxos) res := by
  simp only [largestFirstCoinSelect] at h
  refine select_sorted_utxos_ok _ _ _ _ _ _ ?_ h
  intro p hp w hw
  rcases List.mem_append.mp hp with hp | hp
  · rcases List.mem_map.mp hp with ⟨g, hg, hpg⟩
    subst hpg
    exact List.mem_append.mpr (Or.inl
      (group_utxos_mem params.requiredUtxos params.avoidPartialSpends g hg w hw))
  · rcases List.mem_map.mp hp with ⟨g, hg, hpg⟩
    subst hpg
    rw [List.mem_reverse, insertionSort_mem] at hg
    exact List.mem_append.mpr (Or.inr
      (group_utxos_mem params.optionalUtxos params.avoidPartialSpends g hg w hw))

theorem oldestFirst_ok_inv (params : CoinSelectionParams) (res : CoinSelectionResult)
    (h : oldestFirstCoinSelect params = Except.ok res) :
    resultInvariant params.feeRate params.targetAmount
      (params.requiredUtxos ++ params.optionalUtxos) res := by
  simp only [oldestFirstCoinSelect] at h
  refine select_sorted_utxos_ok _ _ _ _ _ _ ?_ h
  intro p hp w hw
  rcases List.mem_append.mp hp with hp | hp
  · rcases List.mem_map.mp hp with ⟨g, hg, hpg⟩
    subst hpg
    exact List.mem_append.mpr (Or.inl
      (group_utxos_mem params.requiredUtxos params.avoidPartialSpends g hg w hw))
  · rcases List.mem_map.mp hp with ⟨g, hg, hpg⟩
    subst hpg
    rw [insertionSort_mem] at hg
    exact List.mem_append.mpr (Or.inr
      (group_utxos_mem params.optionalUtxos params.avoidPartialSpends g hg w hw))

theorem singleRandomDraw_ok_inv (params : CoinSelectionParams) (res : CoinSelectionResult)
    (h : singleRandomDrawCoinSelect params = Except.ok res) :
    resultInvariant params.feeRate params.targetAmount
      (params.requiredUtxos ++ params.optionalUtxos) res := by
  simp only [singleRandomDrawCoinSelect] at h
  refine select_sorted_utxos_ok _ _ _ _ _ _ ?_ h
  intro p hp w hw
  rcases List.mem_append.mp hp with hp | hp
  · rcases List.mem_map.mp hp with ⟨g, hg, hpg⟩
    subst hpg
    exact List.mem_append.mpr (Or.inl
      (group_utxos_mem params.requiredUtxos params.avoidPartialSpends g hg w hw))
  · rcases List.mem_map.mp hp with ⟨g, hg, hpg⟩
    subst hpg
    have hg2 := shuffleSlice_mem _ params.rand g hg
    exact List.mem_append.mpr (Or.inr
      (group_utxos_mem params.optionalUtxos params.avoidPartialSpends g hg2 w hw))

/-! ## C1: the universal success invariant -/

/-- C1: for every policy (largest-first, oldest-first, single random draw, and
branch-and-bound with the default single-random-draw fallback at any
`size_of_change`), a successful result selects UTXOs whose summed value covers
`target_amount + fee_amount`, with `fee_amount` equal to the sum over the
selected weighted UTXOs — drawn from the caller's required and optional lists,
carrying their caller-supplied satisfaction weights — of `fee_rate × (default
segwit input weight + satisfaction weight)`; a failure is an
`InsufficientFunds` error by the return type. -/
theorem coin_select_success_invariant :
    (∀ (params : CoinSelectionParams) (res : CoinSelectionResult),
      largestFirstCoinSelect params = Except.ok res →
      resultInvariant params.feeRate params.targetAmount
        (params.requiredUtxos ++ params.optionalUtxos) res) ∧
    (∀ (params : CoinSelectionParams) (res : CoinSelectionResult),
      oldestFirstCoinSelect params = Except.ok res →
      resultInvariant params.feeRate params.targetAmount
        (params.requiredUtxos ++ params.optionalUtxos) res) ∧
    (∀ (params : CoinSelectionParams) (res : CoinSelectionResult),
      singleRandomDrawCoinSelect params = Except.ok res →
      resultInvariant params.feeRate params.targetAmount
        (params.requiredUtxos ++ params.optionalUtxos) res) ∧
    (∀ (sizeOfChange : Nat) (params : CoinSelectionParams) (res : CoinSelectionResult),
      branchAndBoundCoinSelect sizeOfChange singleRandomDrawCoinSelect params =
        Except.ok res →
      resultInvariant params.feeRate params.targetAmount
        (params.requiredUtxos ++ params.optionalUtxos) res) := by
  refine ⟨largestFirst_ok_inv, oldestFirst_ok_inv, singleRandomDraw_ok_inv, ?_⟩
  intro soc params res h
  simp only [branchAndBoundCoinSelect] at h
  by_cases hc1 : ((optionalOgsOf params).flatten.map (fun og => og.effectiveValue)).sum +
      ((requiredOgsOf params).flatten.map (fun og => og.effectiveValue)).sum <
      (params.targetAmount : Int)
  · rw [if_pos hc1] at h
    simp at h
  · rw [if_neg hc1] at h
    by_cases hc2 : (params.targetAmount : Int) <
        ((requiredOgsOf params).flatten.map (fun og => og.effectiveValue)).sum
    · rw [if_pos hc2] at h
      simp only [Except.ok.injEq] at h
      subst h
      apply calculate_cs_result_invariant
      · intro og hog
        simp only [List.nil_append] at hog
        exact mapped_ogs_wf params.feeRate _ og hog
      · intro og hog
        simp only [List.nil_append] at hog
        exact List.mem_append.mpr (Or.inl (requiredOgsOf_src params og hog))
      · simp only [List.nil_append]
        exact le_of_lt hc2
    · rw [if_neg hc2] at h
      cases hb : bnb (requiredOgsOf params) (optionalOgsOf params)
          ((requiredOgsOf params).flatten.map (fun og => og.effectiveValue)).sum
          ((optionalOgsOf params).flatten.map (fun og => og.effectiveValue)).sum
          (params.targetAmount : Int)
          ((params.feeRate.mulWeight (weightFromVb soc) : Nat) : Int)
          params.drainScript params.feeRate with
      | ok r =>
        rw [hb] at h
        dsimp only at h
        simp only [Except.ok.injEq] at h
        subst h
        obtain ⟨s', v, _, _, _, hlo, _, hval, hr⟩ :=
          bnb_ok_elim _ _ _ _ _ _ _ _ r hb
        rw [hr]
        apply calculate_cs_result_invariant
        · intro og hog
          rw [List.flatten_append] at hog
          rcases List.mem_append.mp hog with hog | hog
          · rcases List.mem_flatten.mp hog with ⟨g, hg, hogg⟩
            have hg2 := (bnbSortOptional_mem g _).mp (chosenGroups_subset _ _ g hg)
            exact filtered_ogs_wf params.feeRate _ og
              (List.mem_flatten.mpr ⟨g, hg2, hogg⟩)
          · exact mapped_ogs_wf params.feeRate _ og hog
        · intro og hog
          rw [List.flatten_append] at hog
          rcases List.mem_append.mp hog with hog | hog
          · rcases List.mem_flatten.mp hog with ⟨g, hg, hogg⟩
            have hg2 := (bnbSortOptional_mem g _).mp (chosenGroups_subset _ _ g hg)
            exact List.mem_append.mpr (Or.inr
              (optionalOgsOf_src params og (List.mem_flatten.mpr ⟨g, hg2, hogg⟩)))
          · exact List.mem_append.mpr (Or.inl (requiredOgsOf_src params og hog))
        · rw [List.flatten_append, List.map_append, List.sum_append]
          have hchosen : (((chosenGroups (bnbSortOptional (optionalOgsOf params))
              s'.bestSelection).flatten.map (fun og => og.effectiveValue)).sum) =
              selSum (bnbSortOptional (optionalOgsOf params)) s'.bestSelection := by
            rw [flatten_eff_sum, ← selSum_eq_chosen]
          rw [hchosen]
          omega
      | error e =>
        rw [hb] at h
        dsimp only at h
        exact singleRandomDraw_ok_inv params res h

/-- Witness for C1 at a concrete input: largest-first with a single optional
UTXO of 100 sats at zero fee rate and target 50 selects it, and the invariant
holds for the returned result. -/
theorem coin_select_success_invariant_witness :
    resultInvariant ⟨0⟩ 50 ([] ++ [sampleUtxo 100 0])
      ⟨[(sampleUtxo 100 0).utxo], 0, Excess.noChange 546 50 0⟩ :=
  coin_select_success_invariant.1
    { requiredUtxos := []
      optionalUtxos := [sampleUtxo 100 0]
      feeRate := ⟨0⟩
      targetAmount := 50
      drainScript := sampleScript
      rand := []
      avoidPartialSpends := false }
    ⟨[(sampleUtxo 100 0).utxo], 0, Excess.noChange 546 50 0⟩ rfl

/-! ## C2: characterization of a BnB search success -/

/-- C2: when the `bnb` search itself succeeds, the sum of effective values of
the required output groups plus the chosen optional groups is the returned
best value, which lies between the target and target plus `cost_of_change`
inclusive; that value is the minimum over every acceptable value the loop
recorded; and a state whose current value equals the target records it and
terminates the loop at once. -/
theorem bnb_success_characterization :
    (∀ (required optional : List (List OutputGroup)) (cv cav target coc : Int)
        (ds : Script) (fr : FeeRate) (r : CoinSelectionResult),
      cv = (required.flatten.map (fun og => og.effectiveValue)).sum →
      bnb required optional cv cav target coc ds fr = Except.ok r →
      ∃ s' v,
        bnbLoop (bnbSortOptional optional) target coc BNB_TOTAL_TRIES
          ⟨[], cv, cav, [], none⟩ = Except.ok s' ∧
        s'.bestSelectionValue = some v ∧
        target ≤ v ∧ v ≤ target + coc ∧
        v = (required.flatten.map (fun og => og.effectiveValue)).sum +
          selSum (bnbSortOptional optional) s'.bestSelection ∧
        v ∈ bnbRecorded (bnbSortOptional optional) target coc BNB_TOTAL_TRIES
            ⟨[], cv, cav, [], none⟩ ∧
        (∀ x ∈ bnbRecorded (bnbSortOptional optional) target coc BNB_TOTAL_TRIES
            ⟨[], cv, cav, [], none⟩, v ≤ x) ∧
        r = calculate_cs_result
            (chosenGroups (bnbSortOptional optional) s'.bestSelection) required
            (decide_change (v - target).toNat fr ds)) ∧
    (∀ (opt : List (List OutputGroup)) (target coc : Int) (fuel : Nat) (s : BnbState),
      s.currValue = target →
      target ≤ s.currValue + s.currAvailableValue →
      s.currValue ≤ target + coc →
      bnbLoop opt target coc (fuel + 1) s = Except.ok (recordBest s)) := by
  refine ⟨?_, bnbLoop_exact_match⟩
  intro required optional cv cav target coc ds fr r hcv h
  obtain ⟨s', v, hloop, hne, hv, hlo, hhi, hval, hr⟩ :=
    bnb_ok_elim required optional cv cav target coc ds fr r h
  have hmf := bnbLoop_minFold (bnbSortOptional optional) target coc BNB_TOTAL_TRIES
    _ s' hloop
  rw [hv] at hmf
  obtain ⟨hmem, hmin⟩ := minFold_none_min _ v hmf.symm
  exact ⟨s', v, hloop, hv, hlo, hhi, by rw [← hcv]; exact hval, hmem, hmin, hr⟩

/-- Witness for C2 at a concrete input: one optional group of effective value
100 at zero fee rate with target 100 is an exact match; the search succeeds
and every characterization clause holds. -/
theorem bnb_success_characterization_witness :
    ∃ s' v,
      bnbLoop (bnbSortOptional [[OutputGroup.new (sampleUtxo 100 0) ⟨0⟩]])
        (100 : Int) 0 BNB_TOTAL_TRIES ⟨[], 0, 100, [], none⟩ = Except.ok s' ∧
      s'.bestSelectionValue = some v ∧
      (100 : Int) ≤ v ∧ v ≤ 100 + 0 ∧
      v = ((([] : List (List OutputGroup)).flatten.map (fun og => og.effectiveValue)).sum) +
        selSum (bnbSortOptional [[OutputGroup.new (sampleUtxo 100 0) ⟨0⟩]])
          s'.bestSelection ∧
      v ∈ bnbRecorded (bnbSortOptional [[OutputGroup.new (sampleUtxo 100 0) ⟨0⟩]])
          100 0 BNB_TOTAL_TRIES ⟨[], 0, 100, [], none⟩ ∧
      (∀ x ∈ bnbRecorded (bnbSortOptional [[OutputGroup.new (sampleUtxo 100 0) ⟨0⟩]])
          100 0 BNB_TOTAL_TRIES ⟨[], 0, 100, [], none⟩, v ≤ x) ∧
      (⟨[(sampleUtxo 100 0).utxo], 0, Excess.noChange 546 0 0⟩ : CoinSelectionResult) =
        calculate_cs_result
          (chosenGroups (bnbSortOptional [[OutputGroup.new (sampleUtxo 100 0) ⟨0⟩]])
            s'.bestSelection) []
          (decide_change (v - 100).toNat ⟨0⟩ sampleScript) :=
  bnb_success_characterization.1 [] [[OutputGroup.new (sampleUtxo 100 0) ⟨0⟩]]
    0 100 100 0 sampleScript ⟨0⟩
    ⟨[(sampleUtxo 100 0).utxo], 0, Excess.noChange 546 0 0⟩ rfl rfl

/-! ## C6: the insufficient-funds error of BnB -/

/-- C6 (counterexample): an optional UTXO of 10 sats costs 68 sats of fee at
1 sat/vB, so its effective value is negative and it is dropped; the reported
`available` is 0, not the whole optional set's value of 10. -/
theorem bnb_available_drops_filtered :
    branchAndBoundCoinSelect 31 largestFirstCoinSelect
        { requiredUtxos := []
          optionalUtxos := [sampleUtxo 10 0]
          feeRate := ⟨250⟩
          targetAmount := 100
          drainScript := sampleScript
          rand := []
          avoidPartialSpends := false } =
      Except.error ⟨100, 0⟩ ∧
    groupValue [sampleUtxo 10 0] = 10 :=
  ⟨rfl, rfl⟩

/-- C6 (amended): when the optional UTXOs with positive effective value plus
the required UTXOs cannot reach the target, `BranchAndBound` returns
`InsufficientFunds` whose `needed` is the target plus the input fees of the
UTXOs it considered (required plus positive-effective-value optional) and
whose `available` is the total value of those same UTXOs — the dropped
non-positive optional UTXOs are excluded from both. -/
theorem bnb_insufficient_funds_fields (sizeOfChange : Nat)
    (fallbackAlgorithm : CoinSelectionParams → Except InsufficientFunds CoinSelectionResult)
    (params : CoinSelectionParams)
    (h : ((optionalOgsOf params).flatten.map (fun og => og.effectiveValue)).sum +
        ((requiredOgsOf params).flatten.map (fun og => og.effectiveValue)).sum <
        (params.targetAmount : Int)) :
    branchAndBoundCoinSelect sizeOfChange fallbackAlgorithm params =
      Except.error
        ⟨params.targetAmount +
            (((requiredOgsOf params ++ optionalOgsOf params).flatten.map
              (fun og => og.fee)).sum),
          (((requiredOgsOf params ++ optionalOgsOf params).flatten.map
            (fun og => og.weightedUtxo.utxo.txout.value)).sum)⟩ := by
  simp only [branchAndBoundCoinSelect]
  rw [if_pos h]

/-- Witness for C6's amended theorem at the counterexample input: both sums
over the considered set are zero, so the error is
`⟨100 + 0, 0⟩ = ⟨100, 0⟩`. -/
theorem bnb_insufficient_funds_fields_witness :
    branchAndBoundCoinSelect 31 largestFirstCoinSelect
        { requiredUtxos := []
          optionalUtxos := [sampleUtxo 10 0]
          feeRate := ⟨250⟩
          targetAmount := 100
          drainScript := sampleScript
          rand := []
          avoidPartialSpends := false } =
      Except.error
        ⟨100 +
            (((requiredOgsOf
                { requiredUtxos := []
                  optionalUtxos := [sampleUtxo 10 0]
                  feeRate := ⟨250⟩
                  targetAmount := 100
                  drainScript := sampleScript
                  rand := []
                  avoidPartialSpends := false } ++
              optionalOgsOf
                { requiredUtxos := []
                  optionalUtxos := [sampleUtxo 10 0]
                  feeRate := ⟨250⟩
                  targetAmount := 100
                  drainScript := sampleScript
                  rand := []
                  avoidPartialSpends := false }).flatten.map (fun og => og.fee)).sum),
          (((requiredOgsOf
              { requiredUtxos := []
                optionalUtxos := [sampleUtxo 10 0]
                feeRate := ⟨250⟩
                targetAmount := 100
                drainScript := sampleScript
                rand := []
                avoidPartialSpends := false } ++
            optionalOgsOf
              { requiredUtxos := []
                optionalUtxos := [sampleUtxo 10 0]
                feeRate := ⟨250⟩
                targetAmount := 100
                drainScript := sampleScript
                rand := []
                avoidPartialSpends := false }).flatten.map
            (fun og => og.weightedUtxo.utxo.txout.value)).sum)⟩ :=
  bnb_insufficient_funds_fields 31 largestFirstCoinSelect _ (by decide)

/-! ## C9: no success on an empty best selection -/

/-- C9: `bnb` never succeeds with an empty best selection — a success implies
the loop exited with a non-empty best-selection vector; and when the required
UTXOs' summed effective value equals the target exactly, the strict pre-check
does not fire, the loop records the empty selection and breaks, the post-loop
empty check turns it into an error, and `coin_select` returns the fallback
algorithm's result instead of the required-only exact match. -/
theorem bnb_empty_best_fallback :
    (∀ (required optional : List (List OutputGroup)) (cv cav target coc : Int)
        (ds : Script) (fr : FeeRate) (r : CoinSelectionResult),
      bnb required optional cv cav target coc ds fr = Except.ok r →
      ∃ s', bnbLoop (bnbSortOptional optional) target coc BNB_TOTAL_TRIES
          ⟨[], cv, cav, [], none⟩ = Except.ok s' ∧ s'.bestSelection ≠ []) ∧
    (∀ (sizeOfChange : Nat)
        (fallbackAlgorithm : CoinSelectionParams →
          Except InsufficientFunds CoinSelectionResult)
        (params : CoinSelectionParams),
      requiredEffSum params = (params.targetAmount : Int) →
      branchAndBoundCoinSelect sizeOfChange fallbackAlgorithm params =
        fallbackAlgorithm params) := by
  constructor
  · intro required optional cv cav target coc ds fr r h
    obtain ⟨s', v, hloop, hne, _⟩ := bnb_ok_elim required optional cv cav target coc ds fr r h
    exact ⟨s', hloop, hne⟩
  · intro soc fb params hreq
    have hcav : (0 : Int) ≤
        ((optionalOgsOf params).flatten.map (fun og => og.effectiveValue)).sum := by
      apply List.sum_nonneg
      intro x hx
      rcases List.mem_map.mp hx with ⟨og, hog, hx⟩
      subst hx
      exact le_of_lt (filtered_ogs_pos params.feeRate
        (group_utxos_if_applies params.optionalUtxos params.avoidPartialSpends) og hog)
    have hreq2 : ((requiredOgsOf params).flatten.map (fun og => og.effectiveValue)).sum =
        (params.targetAmount : Int) := hreq
    simp only [branchAndBoundCoinSelect]
    rw [hreq2]
    rw [if_neg (by omega)]
    rw [if_neg (lt_irrefl _)]
    have hloop : bnbLoop (bnbSortOptional (optionalOgsOf params))
        (params.targetAmount : Int)
        ((params.feeRate.mulWeight (weightFromVb soc) : Nat) : Int) BNB_TOTAL_TRIES
        ⟨[], (params.targetAmount : Int),
          ((optionalOgsOf params).flatten.map (fun og => og.effectiveValue)).sum,
          [], none⟩ =
        Except.ok ⟨[], (params.targetAmount : Int),
          ((optionalOgsOf params).flatten.map (fun og => og.effectiveValue)).sum,
          [], some (params.targetAmount : Int)⟩ := by
      rw [show BNB_TOTAL_TRIES = 99999 + 1 from rfl]
      exact bnbLoop_exact_match _ _ _ 99999 _ rfl (by simpa using hcav)
        (by simp)
    simp only [bnb, hloop]
    rfl

/-- Witness for C9: a required UTXO of 168 sats at 1 sat/vB has effective
value 100 = target; `BranchAndBound` hands the call to the fallback
(largest-first here). -/
theorem bnb_empty_best_fallback_witness :
    branchAndBoundCoinSelect 31 largestFirstCoinSelect
        { requiredUtxos := [sampleUtxo 168 0]
          optionalUtxos := [sampleUtxo 500 1]
          feeRate := ⟨250⟩
          targetAmount := 100
          drainScript := sampleScript
          rand := []
          avoidPartialSpends := false } =
      largestFirstCoinSelect
        { requiredUtxos := [sampleUtxo 168 0]
          optionalUtxos := [sampleUtxo 500 1]
          feeRate := ⟨250⟩
          targetAmount := 100
          drainScript := sampleScript
          rand := []
          avoidPartialSpends := false } :=
  bnb_empty_best_fallback.2 31 largestFirstCoinSelect _ (by decide)

end CoinSelection
